import Mathlib

/-!
# A table-driven lexer (`src/lexer.cpp`): shallow embedding and verified properties

The C++ translation unit `src/lexer.cpp` is embedded function by function.

Conventions of the embedding:

* `char` is the 8-bit signed character type of the x86-64 ABI.  A byte of a
  file or of a table cell is a `Char` whose code is the byte (0 .. 255);
  `charToInt` is the integral promotion of such a byte and `intToChar` the
  conversion of an `int` to `char` (read back as an `int`).
* `std::string` is `String` (for the lexeme and the table cells); the text of
  the source file is kept as its list of characters.
* `std::map<K, V>` is a function `K → Option V`; `operator[]` returns the
  stored value and, on a missing key, inserts the value-initialised `V`
  (the number `0`), so every function that uses `operator[]` also returns the
  map it leaves behind.
* The integers that the program reads from table cells are the 32-bit values
  that `atoi` returns (see `atoi`).  The `int` values that the program counts
  itself (lines and columns) are unbounded `Int`s: a source would need 2^31
  lines or columns to leave the 32-bit range, which is undefined behaviour of
  the program rather than wrap-around.
* A `while` loop that need not terminate takes a fuel argument and answers
  `Fault.out_of_fuel` when it is used up; a path of the program with undefined
  behaviour answers `Fault.undefined_behaviour`.  Every read of a variable or
  field that was never assigned is such a path: the test on `tokenType` after
  a loop that assigned none, and the copy of the local `token` of `lex` whose
  line and column no scan has assigned.
-/

namespace LexerCpp

/-! ## Types of `lexer.h` -/

/-- Modelled from the spec: the typedef state_t of lexer.h (a state is an integer). -/
abbrev state_t := Int

/-- Modelled from the spec: the enumeration token_class_t of lexer.h, by the number
of each member (the table files carry these numbers). -/
abbrev token_class_t := Int

/-- Modelled from the spec: the declarations of lexer.h that lexer.cpp names and that
are not part of the sources: the numbers of the three enumeration members
ERROR, WHITESPACE and END_OF_FILE, and the reserved-word table (exact lexeme
text to token class). -/
structure Header where
  ERROR : token_class_t
  WHITESPACE : token_class_t
  END_OF_FILE : token_class_t
  reserved_words : String → Option token_class_t

/-- Modelled from the spec: the record token_t of lexer.h,
with fields type, lexeme, line, column and file.  The two int fields have no
initialiser: `none` is the indeterminate value of a field never assigned. -/
structure token_t where
  type : token_class_t
  lexeme : String
  line : Option Int
  column : Option Int
  file : String
  deriving DecidableEq

abbrev token_stream_t := List token_t

/-- Outcomes of a run other than a result. -/
inductive Fault where
  | undefined_behaviour
  | out_of_fuel
  deriving DecidableEq

/-! ## Characters and the C library -/

/-- The macro `EOF` of the C library. -/
def EOF : Int := -1

/-- Integral promotion of a (signed, 8-bit) `char` holding the given byte. -/
def charToInt (c : Char) : Int :=
  if c.toNat < 128 then (c.toNat : Int) else (c.toNat : Int) - 256

/-- Conversion of an `int` to (signed, 8-bit) `char`, read back as an `int`. -/
def intToChar (v : Int) : Int := (v + 128) % 256 - 128

/-- The function `isspace` of the C library in the default locale. -/
def isspace (c : Char) : Bool :=
  c = ' ' || c = '\t' || c = '\n' || c = '\x0b' || c = '\x0c' || c = '\r'

/-- The function `isdigit` of the C library. -/
def isdigit (c : Char) : Bool := decide ('0' ≤ c) && decide (c ≤ '9')

/-- Value of the longest run of decimal digits at the head of the text,
accumulated from `acc`. -/
def atoi_digits : List Char → Nat → Nat
  | [], acc => acc
  | c :: cs, acc => if isdigit c then atoi_digits cs (10 * acc + (c.toNat - 48)) else acc

/-- The value that `strtol` returns for a decimal text of the given value:
the value itself within the range of `long` (64 bits), and the nearest bound
of that range outside it. -/
def saturateLong (v : Int) : Int :=
  if 9223372036854775807 < v then 9223372036854775807
  else if v < -9223372036854775808 then -9223372036854775808
  else v

/-- Conversion of a `long` to `int` (32 bits, two's complement). -/
def longToInt (v : Int) : Int := (v + 2147483648) % 4294967296 - 2147483648

/-- The function `atoi` of the C library: leading white space is skipped, an
optional sign is read, then the longest run of decimal digits; text without
digits gives 0.  For a value outside the range of `int` the C standard leaves
the result open; the result taken is the one of the C library of the
platform (glibc on x86-64), where `atoi(s)` is `(int) strtol(s, 0, 10)`: the
value saturated to the range of `long` and then cut to its low 32 bits. -/
def atoi (str : String) : Int :=
  longToInt (saturateLong
    (match str.toList.dropWhile isspace with
      | '-' :: ds => - (atoi_digits ds 0 : Int)
      | '+' :: ds => (atoi_digits ds 0 : Int)
      | ds => (atoi_digits ds 0 : Int)))

/-- Assignment `m[k] = v` on a `std::map`. -/
def map_assign {κ ν : Type} [DecidableEq κ] (m : κ → Option ν) (k : κ) (v : ν) : κ → Option ν :=
  fun k' => if k' = k then some v else m k'

/-! ## Scanner -/

/-- The class `Scanner`: the path, the text read from the file, and the cursor. -/
structure Scanner where
  file_path : String
  source : List Char
  current_column : Int
  current_line : Int
  current_character : Nat

/-- The constructor `Scanner::Scanner`, given the text found in the file. -/
def Scanner.ofFile (file_path : String) (source : List Char) : Scanner :=
  { file_path := file_path, source := source,
    current_column := 1, current_line := 1, current_character := 0 }

/-- The method `Scanner::next`: the character returned and the scanner left behind. -/
def Scanner.next (s : Scanner) : Char × Scanner :=
  if h : s.current_character < s.source.length then
    let next_character := s.source[s.current_character]
    if next_character = '\n' then
      (next_character, { s with current_character := s.current_character + 1,
                                current_line := s.current_line + 1,
                                current_column := 1 })
    else
      (next_character, { s with current_character := s.current_character + 1,
                                current_column := s.current_column + 1 })
  else
    ('\x00', s)

/-- The method `Scanner::peek`. -/
def Scanner.peek (s : Scanner) : Char :=
  if h : s.current_character < s.source.length then
    s.source[s.current_character]
  else
    '\x00'

/-- Modelled from the spec: the getter Scanner::getFilePath of lexer.h. -/
def Scanner.getFilePath (s : Scanner) : String := s.file_path

/-- Modelled from the spec: the getter Scanner::getColumn of lexer.h. -/
def Scanner.getColumn (s : Scanner) : Int := s.current_column

/-- Modelled from the spec: the getter Scanner::getLine of lexer.h. -/
def Scanner.getLine (s : Scanner) : Int := s.current_line

/-! ## Tables -/

/-- Modelled from the spec: the tabular-file reader CsvReader, which the lexer uses
only through its row count, its column count and its cell accessor. -/
structure CsvReader where
  getRows : Nat
  getColumns : Nat
  get : Nat → Nat → String

/-- A reader over a grid given as rows of cells: the column count is the length
of the first row, and a cell outside the grid reads as the empty text. -/
def CsvReader.ofGrid (grid : List (List String)) : CsvReader :=
  { getRows := grid.length,
    getColumns := (grid.headD []).length,
    get := fun row col => (grid.getD row []).getD col "" }

/-- The class `ScanningTable`. -/
structure ScanningTable where
  state_symbol_to_state : state_t × Char → Option state_t

/-- The method `ScanningTable::map_string_to_char`; `str[0]` of an empty
`std::string` is the terminating NUL. -/
def ScanningTable.map_string_to_char (str : String) : Char :=
  if str = "0x0A" ∨ str = "0x0a" ∨ str = "\\n" then '\n'
  else if str = "0x0D" ∨ str = "0x0d" ∨ str = "\\r" then '\r'
  else if str = "0x20" then ' '
  else if str = "0x09" ∨ str = "\\t" then '\t'
  else if str = "comma" ∨ str = "Comma" then ','
  else str.toList.headD '\x00'

/-- Body of the inner loop of `ScanningTable::ScanningTable` for one row. -/
def ScanningTable.fill_cell (table : CsvReader) (current_column : Nat) (current_symbol : Char)
    (m : state_t × Char → Option state_t) (current_row : Nat) : state_t × Char → Option state_t :=
  let current_state : state_t := atoi (table.get current_row 0)
  let next_state := table.get current_row current_column
  if next_state ≠ "" then
    map_assign m (current_state, current_symbol) (atoi next_state)
  else
    m

/-- Body of the outer loop of `ScanningTable::ScanningTable` for one column:
the inner loop runs `current_row` from 1 while it is below the row count. -/
def ScanningTable.fill_column (table : CsvReader)
    (m : state_t × Char → Option state_t) (current_column : Nat) : state_t × Char → Option state_t :=
  let current_symbol := ScanningTable.map_string_to_char (table.get 0 current_column)
  (List.range' 1 (table.getRows - 1)).foldl
    (ScanningTable.fill_cell table current_column current_symbol) m

/-- The constructor `ScanningTable::ScanningTable`: the outer loop runs
`current_column` from 1 while it is below the column count. -/
def ScanningTable.ofCsv (table : CsvReader) : ScanningTable :=
  { state_symbol_to_state :=
      (List.range' 1 (table.getColumns - 1)).foldl
        (ScanningTable.fill_column table) (fun _ => none) }

/-- The method `ScanningTable::getNextState`: `operator[]` on the map, and the
value converted to the return type `char`. -/
def ScanningTable.getNextState (t : ScanningTable) (state : state_t) (symbol : Char) :
    Int × ScanningTable :=
  match t.state_symbol_to_state (state, symbol) with
  | some v => (intToChar v, t)
  | none => (intToChar 0, { state_symbol_to_state := map_assign t.state_symbol_to_state (state, symbol) 0 })

/-- The method `ScanningTable::containsNextState`. -/
def ScanningTable.containsNextState (t : ScanningTable) (state : state_t) (symbol : Char) : Bool :=
  (t.state_symbol_to_state (state, symbol)).isSome

/-- The class `TokenTable`. -/
structure TokenTable where
  state_to_token_type : state_t → Option token_class_t

/-- The constructor `TokenTable::TokenTable`. -/
def TokenTable.ofCsv (table : CsvReader) : TokenTable :=
  { state_to_token_type :=
      (List.range table.getRows).foldl
        (fun m row => map_assign m (atoi (table.get row 0)) (atoi (table.get row 1)))
        (fun _ => none) }

/-- The method `TokenTable::getTokenTypeFromFinalState`: `operator[]` on the map. -/
def TokenTable.getTokenTypeFromFinalState (t : TokenTable) (final_state : state_t) :
    token_class_t × TokenTable :=
  match t.state_to_token_type final_state with
  | some v => (v, t)
  | none => (0, { state_to_token_type := map_assign t.state_to_token_type final_state 0 })

/-- The method `TokenTable::isStateFinal`. -/
def TokenTable.isStateFinal (t : TokenTable) (state : state_t) : Bool :=
  (t.state_to_token_type state).isSome

/-! ## Lexer -/

/-- The class `Lexer`: its two tables. -/
structure Lexer where
  scanning_table : ScanningTable
  token_table : TokenTable

/-- The constructor `Lexer::Lexer`, given the two table files as read. -/
def Lexer.ofCsv (scanning token : CsvReader) : Lexer :=
  { scanning_table := ScanningTable.ofCsv scanning, token_table := TokenTable.ofCsv token }

/-- What the `while` loop of `Lexer::scan_token` leaves behind: the local
variables `tokenType` (`none` while it has not been assigned), `tokenEnd` and
`state`, the scanner and the lexer. -/
structure ScanEnd where
  tokenType : Option token_class_t
  tokenEnd : String
  state : Int
  scanner : Scanner
  lexer : Lexer

/-- The `while` loop of `Lexer::scan_token`. -/
def Lexer.scan_loop (H : Header) :
    Nat → Lexer → Scanner → Int → String → Except Fault ScanEnd
  | 0, _, _, _, _ => .error .out_of_fuel
  | fuel + 1, L, scanner, state, tokenEnd =>
    if charToInt scanner.peek = EOF then
      .ok { tokenType := none, tokenEnd := tokenEnd, state := state,
            scanner := scanner, lexer := L }
    else
      let scanned := scanner.peek
      if L.scanning_table.containsNextState state scanned then
        let scanner1 := scanner.next.2
        let tokenEnd1 := tokenEnd.push scanned
        let r := L.scanning_table.getNextState state scanned
        Lexer.scan_loop H fuel { L with scanning_table := r.2 } scanner1 r.1 tokenEnd1
      else if L.token_table.isStateFinal state then
        let r := L.token_table.getTokenTypeFromFinalState state
        .ok { tokenType := some r.1, tokenEnd := tokenEnd, state := state,
              scanner := scanner, lexer := { L with token_table := r.2 } }
      else
        let r := L.token_table.getTokenTypeFromFinalState H.ERROR
        .ok { tokenType := some r.1, tokenEnd := tokenEnd, state := state,
              scanner := scanner, lexer := { L with token_table := r.2 } }

/-- The part of `Lexer::scan_token` after the loop.  Reading `tokenType` while
it is indeterminate is undefined.  The source opens one more brace than it
closes after the test on `tokenType`: whether the missing brace is the one of
the test or the one of the function, a failed test leaves the function
without a token whose type was assigned (no `return`, or a token with an
indeterminate type), and both are undefined behaviour; a test that succeeds
assigns all five fields and returns the token under either reading. -/
def Lexer.scan_finish (H : Header) (file : String) (column line : Int) (e : ScanEnd) :
    Except Fault (token_t × Scanner × Lexer) :=
  match e.tokenType with
  | none => .error .undefined_behaviour
  | some tokenType =>
    if H.ERROR ≤ tokenType ∧ tokenType ≤ H.WHITESPACE then
      let type : token_class_t :=
        match H.reserved_words e.tokenEnd with
        | some reserved => reserved
        | none => tokenType
      .ok ({ type := type, column := some column, lexeme := e.tokenEnd,
             line := some line, file := file }, e.scanner, e.lexer)
    else
      .error .undefined_behaviour

/-- The method `Lexer::scan_token`: the token returned, the scanner and the
lexer left behind. -/
def Lexer.scan_token (H : Header) (L : Lexer) (fuel : Nat) (scanner : Scanner) :
    Except Fault (token_t × Scanner × Lexer) :=
  let file := scanner.getFilePath
  let column := scanner.getColumn
  let line := scanner.getLine
  match Lexer.scan_loop H fuel L scanner 1 "" with
  | .error f => .error f
  | .ok e => Lexer.scan_finish H file column line e

/-- What `Lexer::lex` leaves behind: the stream returned, and the scanner and
the lexer at the end of the call. -/
structure LexEnd where
  token_stream : token_stream_t
  scanner : Scanner
  lexer : Lexer

/-- The token pushed after the loop of `Lexer::lex`: the local variable `token`
as the last scan assigned it, with its lexeme and type overwritten. -/
def Lexer.eof_token (H : Header) (token : token_t) : token_t :=
  { token with lexeme := "", type := H.END_OF_FILE }

/-- The statements of `Lexer::lex` after its loop; `token` is the local
variable of that name (`none` when no scan has assigned it).  Only the lexeme
and the type of `token` are assigned before `push_back(token)` copies it:
when no scan has assigned the variable, that copy reads a line and a column
that were never assigned, which is undefined behaviour. -/
def Lexer.lex_finish (H : Header) (L : Lexer) (scanner : Scanner) (token : Option token_t)
    (token_stream : token_stream_t) : Except Fault LexEnd :=
  match token with
  | none => .error .undefined_behaviour
  | some assigned =>
    .ok { token_stream := token_stream ++ [Lexer.eof_token H assigned],
          scanner := scanner, lexer := L }

/-- The `while` loop of `Lexer::lex`, followed by the statements after it;
`token` is the local variable of that name (`none` before its first
assignment). -/
def Lexer.lex_loop (H : Header) :
    Nat → Lexer → Scanner → Option token_t → token_stream_t → Except Fault LexEnd
  | 0, _, _, _, _ => .error .out_of_fuel
  | fuel + 1, L, scanner, token, token_stream =>
    if scanner.peek ≠ '\x00' then
      match Lexer.scan_token H L fuel scanner with
      | .error f => .error f
      | .ok (token1, scanner1, L1) =>
        if token1.type ≠ H.WHITESPACE then
          Lexer.lex_loop H fuel L1 scanner1 (some token1) (token_stream ++ [token1])
        else
          Lexer.lex_loop H fuel L1 scanner1 (some token1) token_stream
    else
      Lexer.lex_finish H L scanner token token_stream

/-- The method `Lexer::lex`, given the text found in the file. -/
def Lexer.lex (H : Header) (L : Lexer) (fuel : Nat) (file_path : String) (source : List Char) :
    Except Fault LexEnd :=
  Lexer.lex_loop H fuel L (Scanner.ofFile file_path source) none []

/-! ## Notions used by the statements -/

/-- The remaining input of a scanner: the characters from the cursor on. -/
def Scanner.rest (s : Scanner) : List Char := s.source.drop s.current_character

/-- The scanner after `n` calls of `Scanner::next`. -/
def Scanner.skip (s : Scanner) : Nat → Scanner
  | 0 => s
  | n + 1 => Scanner.skip s.next.2 n

/-- The longest run of the engine's automaton over the input, from the given
state: the longest leading part of the input along which a transition is
defined at every step, paired with the state reached after it.  The state
after a step is the one the engine continues in, the value returned by
`getNextState`. -/
def ScanningTable.munch (t : ScanningTable) : Int → List Char → List Char × Int
  | state, [] => ([], state)
  | state, c :: cs =>
    if t.containsNextState state c then
      let r := ScanningTable.munch t (t.getNextState state c).1 cs
      (c :: r.1, r.2)
    else
      ([], state)

/-- The state the engine reaches by following the given characters from the given
state, when a transition is defined at every step (`none` otherwise). -/
def ScanningTable.run (t : ScanningTable) : Int → List Char → Option Int
  | state, [] => some state
  | state, c :: cs =>
    if t.containsNextState state c then
      ScanningTable.run t (t.getNextState state c).1 cs
    else
      none

/-- The class that the last two branches of the loop of `Lexer::scan_token`
assign to `tokenType` in the given state, and the token table left behind. -/
def Lexer.classify (H : Header) (L : Lexer) (state : Int) : token_class_t × TokenTable :=
  if L.token_table.isStateFinal state then
    L.token_table.getTokenTypeFromFinalState state
  else
    L.token_table.getTokenTypeFromFinalState H.ERROR

/-- Spec: the successive single-token scans of one run over a file, in scan order:
while the source is not exhausted a token is scanned; each entry is the
scanner the scan started from and the token it returned.  The scanner and the
lexer after the last scan are returned as well. -/
def Lexer.scan_all (H : Header) :
    Nat → Lexer → Scanner → Except Fault (List (Scanner × token_t) × Scanner × Lexer)
  | 0, _, _ => .error .out_of_fuel
  | fuel + 1, L, scanner =>
    if scanner.peek ≠ '\x00' then
      match Lexer.scan_token H L fuel scanner with
      | .error f => .error f
      | .ok (token, scanner1, L1) =>
        match Lexer.scan_all H fuel L1 scanner1 with
        | .error f => .error f
        | .ok (rest, scannerEnd, LEnd) => .ok ((scanner, token) :: rest, scannerEnd, LEnd)
    else
      .ok ([], scanner, L)

/-- Spec: the token stream in the words of the specification: the tokens of the
successive scans, in scan order, without those whose class is WHITESPACE,
followed by the End-Of-File token (built from the last token scanned, when
there is one). -/
def Lexer.stream_of_scans (H : Header) (scans : List (Scanner × token_t)) : token_stream_t :=
  (scans.map (fun s => s.2)).filter (fun t => decide (t.type ≠ H.WHITESPACE)) ++
    (((scans.map (fun s => s.2)).getLast?).map (Lexer.eof_token H)).toList

/-- The line of the character at the given index of the text: 1 plus the number
of newline characters before it. -/
def lineAt (source : List Char) (index : Nat) : Int :=
  1 + ((source.take index).count '\n' : Nat)

/-- The column of the character at the given index of the text: 1 plus the
number of characters between the last newline before it (or the start of the
text) and the character. -/
def columnAt (source : List Char) (index : Nat) : Int :=
  1 + ((((source.take index).reverse.takeWhile (fun c => decide (c ≠ '\n'))).length : Nat) : Int)

/-- The line and column counters of the scanner are those of its cursor. -/
def Scanner.WellPositioned (s : Scanner) : Prop :=
  s.current_line = lineAt s.source s.current_character ∧
    s.current_column = columnAt s.source s.current_character

/-- The first token stands before the second: their lines and columns are
assigned and (line, column) of the first is below (line, column) of the
second in lexicographic order. -/
def token_t.before (t u : token_t) : Prop :=
  ∃ l1 c1 l2 c2 : Int, t.line = some l1 ∧ t.column = some c1 ∧ u.line = some l2 ∧
    u.column = some c2 ∧ (l1 < l2 ∨ (l1 = l2 ∧ c1 < c2))

/-- The second lexer is the first one as a run can leave it behind: the same
transition table, and the same classification table or that table after the
error branch inserted the key ERROR (with the value-initialised class 0) that
it did not have. -/
def Lexer.SameUpToErrorKey (H : Header) (La Lb : Lexer) : Prop :=
  Lb.scanning_table = La.scanning_table ∧
    (Lb.token_table = La.token_table ∨
      (La.token_table.state_to_token_type H.ERROR = none ∧
        Lb.token_table.state_to_token_type =
          map_assign La.token_table.state_to_token_type H.ERROR 0))

/-- The part of a text that precedes its first NUL character (all of it when it
has none). -/
def untilNul (s : List Char) : List Char := s.takeWhile (fun c => decide (c ≠ '\x00'))

/-- Two scanners agree up to the first NUL of their sources: same path, same
counters, same cursor, sources that are equal before their first NUL, and a
cursor that is not beyond it. -/
def Scanner.AgreeUntilNul (a b : Scanner) : Prop :=
  a.file_path = b.file_path ∧ a.current_line = b.current_line ∧
    a.current_column = b.current_column ∧ a.current_character = b.current_character ∧
    untilNul a.source = untilNul b.source ∧
    a.current_character ≤ (untilNul a.source).length

/-! ## Sample header and tables for the closed statements -/

/-- A header used by the closed statements: ERROR is 0, an identifier class 1,
a numeric class 2, WHITESPACE 3, END_OF_FILE 4, and the only reserved word is
"if", of class 5. -/
def sampleHeader : Header :=
  { ERROR := 0, WHITESPACE := 3, END_OF_FILE := 4,
    reserved_words := fun s => if s = "if" then some 5 else none }

/-- The transition grid of the digits-only automaton: state 1 goes to state 2
on a digit, and state 2 to itself. -/
def digitsGrid : List (List String) :=
  [["", "0", "1", "2", "3", "4", "5", "6", "7", "8", "9"],
   ["1", "2", "2", "2", "2", "2", "2", "2", "2", "2", "2"],
   ["2", "2", "2", "2", "2", "2", "2", "2", "2", "2", "2"]]

/-- The digits-only lexer: state 2 is accepting, of the numeric class 2. -/
def digitsLexer : Lexer :=
  Lexer.ofCsv (CsvReader.ofGrid digitsGrid) (CsvReader.ofGrid [["2", "2"]])

/-- A lexer for the digit 1 and white space: state 2 (digits) is accepting, of
the numeric class 2, and state 3 (blanks and newlines) of the class
WHITESPACE of the sample header, 3. -/
def spaceLexer : Lexer :=
  Lexer.ofCsv
    (CsvReader.ofGrid
      [["", "1", "0x20", "0x0A"], ["1", "2", "3", "3"], ["2", "2", "", ""],
       ["3", "", "3", "3"]])
    (CsvReader.ofGrid [["2", "2"], ["3", "3"]])

/-- A lexer for words over the letters i and f: state 2 is accepting, of the
identifier class 1. -/
def wordLexer : Lexer :=
  Lexer.ofCsv (CsvReader.ofGrid [["", "i", "f"], ["1", "2", "2"], ["2", "2", "2"]])
    (CsvReader.ofGrid [["2", "1"]])

/-- A lexer that needs the three letters i, f, x in this order to reach its only
accepting state 4 (of the identifier class 1). -/
def ifxLexer : Lexer :=
  Lexer.ofCsv
    (CsvReader.ofGrid
      [["", "i", "f", "x"], ["1", "2", "", ""], ["2", "", "3", ""], ["3", "", "", "4"]])
    (CsvReader.ofGrid [["4", "1"]])

/-- A lexer whose transition grid has an empty header cell: state 1 goes to
state 2 on the letter a, state 2 goes to state 3 on the NUL character, and
state 3 is accepting, of class 2. -/
def nulLexer : Lexer :=
  Lexer.ofCsv (CsvReader.ofGrid [["", "a", ""], ["1", "2", ""], ["2", "", "3"]])
    (CsvReader.ofGrid [["3", "2"]])

/-- A lexer whose only transition leads from state 1 to state 300 on the letter
a; state 300 is accepting, of the identifier class 1. -/
def wideLexer : Lexer :=
  Lexer.ofCsv (CsvReader.ofGrid [["", "a"], ["1", "300"]]) (CsvReader.ofGrid [["300", "1"]])

/-- A lexer whose transition grid has an empty header cell and a transition on
NUL from state 2 to itself: state 1 goes to state 2 on the letter a; no state
is accepting. -/
def nulLoopLexer : Lexer :=
  Lexer.ofCsv (CsvReader.ofGrid [["", "a", ""], ["1", "2", ""], ["2", "", "2"]])
    (CsvReader.ofGrid [])

/-- A lexer for the digit 1 whose accepting state 2 carries the class number 7,
which no member between ERROR and WHITESPACE of the sample header has. -/
def classSevenLexer : Lexer :=
  Lexer.ofCsv (CsvReader.ofGrid [["", "1"], ["1", "2"], ["2", "2"]])
    (CsvReader.ofGrid [["2", "7"]])

/-- A classification grid in which state 2 has two rows. -/
def twoRowsGrid : List (List String) := [["2", "1"], ["3", "3"], ["2", "5"]]

/-! ## Lemmas -/

theorem Scanner.rest_cons_iff {s : Scanner} {c : Char} {cs : List Char} (h : s.rest = c :: cs) :
    ∃ hlt : s.current_character < s.source.length,
      s.source[s.current_character] = c ∧ s.source.drop (s.current_character + 1) = cs := by
  unfold Scanner.rest at h
  have hlt : s.current_character < s.source.length := by
    by_contra hge
    rw [List.drop_eq_nil_of_le (Nat.le_of_not_lt hge)] at h
    cases h
  refine ⟨hlt, ?_⟩
  rw [List.drop_eq_getElem_cons hlt] at h
  injection h with h1 h2
  exact ⟨h1, h2⟩

theorem Scanner.peek_of_rest_cons {s : Scanner} {c : Char} {cs : List Char}
    (h : s.rest = c :: cs) : s.peek = c := by
  obtain ⟨hlt, hc, _⟩ := Scanner.rest_cons_iff h
  simp [Scanner.peek, hlt, hc]

theorem Scanner.not_lt_of_rest_nil {s : Scanner} (h : s.rest = []) :
    ¬ s.current_character < s.source.length := by
  unfold Scanner.rest at h
  rw [List.drop_eq_nil_iff] at h
  omega

theorem Scanner.peek_of_rest_nil {s : Scanner} (h : s.rest = []) : s.peek = '\x00' := by
  simp [Scanner.peek, Scanner.not_lt_of_rest_nil h]

theorem Scanner.next_of_rest_nil {s : Scanner} (h : s.rest = []) : s.next = ('\x00', s) := by
  simp [Scanner.next, Scanner.not_lt_of_rest_nil h]

theorem Scanner.next_of_rest_cons {s : Scanner} {c : Char} {cs : List Char}
    (h : s.rest = c :: cs) :
    s.next.1 = c ∧ s.next.2.rest = cs ∧ s.next.2.source = s.source ∧
      s.next.2.file_path = s.file_path ∧
      s.next.2.current_character = s.current_character + 1 := by
  obtain ⟨hlt, hc, hd⟩ := Scanner.rest_cons_iff h
  unfold Scanner.next
  simp only [hlt, dite_true, hc]
  by_cases hn : c = '\n'
  · simp [hn, Scanner.rest, hd]
  · simp [hn, Scanner.rest, hd]

theorem ScanningTable.getNextState_of_contains {t : ScanningTable} {state : Int} {c : Char}
    (h : t.containsNextState state c = true) : (t.getNextState state c).2 = t := by
  unfold ScanningTable.containsNextState at h
  unfold ScanningTable.getNextState
  cases hv : t.state_symbol_to_state (state, c) with
  | none => simp [hv] at h
  | some v => rfl

theorem charToInt_nul : charToInt '\x00' ≠ EOF := by decide

theorem Lexer.scan_loop_stop (H : Header) (L : Lexer) (sc : Scanner) (state : Int)
    (buf : String) (fuel : Nat) (hE : charToInt sc.peek ≠ EOF)
    (hc : L.scanning_table.containsNextState state sc.peek = false) :
    Lexer.scan_loop H (fuel + 1) L sc state buf =
      .ok { tokenType := some (Lexer.classify H L state).1, tokenEnd := buf, state := state,
            scanner := sc, lexer := { L with token_table := (Lexer.classify H L state).2 } } := by
  unfold Lexer.scan_loop Lexer.classify
  simp only [hE, if_false, hc]
  by_cases hf : L.token_table.isStateFinal state = true
  · simp [hf]
  · simp [hf]

theorem Lexer.scan_loop_step (H : Header) (L : Lexer) (sc : Scanner) (state : Int)
    (buf : String) (fuel : Nat) (hE : charToInt sc.peek ≠ EOF)
    (hc : L.scanning_table.containsNextState state sc.peek = true) :
    Lexer.scan_loop H (fuel + 1) L sc state buf =
      Lexer.scan_loop H fuel L sc.next.2 (L.scanning_table.getNextState state sc.peek).1
        (buf.push sc.peek) := by
  conv => lhs; unfold Lexer.scan_loop
  simp only [hE, if_false, hc, if_true, ScanningTable.getNextState_of_contains hc]

theorem String.push_append_mk (buf : String) (c : Char) (p : List Char) :
    buf.push c ++ String.mk p = buf ++ String.mk (c :: p) := by
  apply String.ext
  simp

theorem String.append_mk_nil (buf : String) : buf ++ String.mk [] = buf := by
  apply String.ext
  simp

theorem Lexer.scan_loop_munch (H : Header) (L : Lexer) :
    ∀ (input : List Char) (sc : Scanner) (state : Int) (buf : String) (fuel : Nat),
      sc.rest = input →
      (∀ c ∈ input.take ((L.scanning_table.munch state input).1.length + 1), charToInt c ≠ EOF) →
      ((L.scanning_table.munch state input).1.length < input.length ∨
        L.scanning_table.containsNextState (L.scanning_table.munch state input).2 '\x00' = false) →
      (L.scanning_table.munch state input).1.length < fuel →
      Lexer.scan_loop H fuel L sc state buf =
        .ok { tokenType := some (Lexer.classify H L (L.scanning_table.munch state input).2).1,
              tokenEnd := buf ++ String.mk (L.scanning_table.munch state input).1,
              state := (L.scanning_table.munch state input).2,
              scanner := sc.skip (L.scanning_table.munch state input).1.length,
              lexer := { L with token_table :=
                (Lexer.classify H L (L.scanning_table.munch state input).2).2 } } := by
  intro input
  induction input with
  | nil =>
    intro sc state buf fuel hrest _ hstop hfuel
    obtain ⟨f, rfl⟩ : ∃ f, fuel = f + 1 := ⟨fuel - 1, by omega⟩
    have hp := Scanner.peek_of_rest_nil hrest
    simp only [ScanningTable.munch, List.length_nil, Nat.lt_irrefl, false_or] at hstop
    rw [Lexer.scan_loop_stop H L sc state buf f (by rw [hp]; exact charToInt_nul)
      (by rw [hp]; exact hstop)]
    simp [ScanningTable.munch, Scanner.skip, String.append_mk_nil]
  | cons c cs ih =>
    intro sc state buf fuel hrest h255 hstop hfuel
    obtain ⟨f, rfl⟩ : ∃ f, fuel = f + 1 := ⟨fuel - 1, by omega⟩
    have hp := Scanner.peek_of_rest_cons hrest
    have hcE : charToInt c ≠ EOF := h255 c (by simp)
    by_cases hc : L.scanning_table.containsNextState state c = true
    · obtain ⟨_, hnrest, _, _, _⟩ := Scanner.next_of_rest_cons hrest
      have hm : L.scanning_table.munch state (c :: cs) =
          (c :: (L.scanning_table.munch (L.scanning_table.getNextState state c).1 cs).1,
            (L.scanning_table.munch (L.scanning_table.getNextState state c).1 cs).2) := by
        simp [ScanningTable.munch, hc]
      rw [hm] at h255 hstop hfuel ⊢
      simp only [List.length_cons] at h255 hstop hfuel ⊢
      rw [Lexer.scan_loop_step H L sc state buf f (by rw [hp]; exact hcE) (by rw [hp]; exact hc),
        hp]
      rw [ih sc.next.2 _ (buf.push c) f hnrest
        (fun d hd => h255 d (by
          rw [List.take_succ_cons]
          exact List.mem_cons_of_mem _ hd))
        (by
          rcases hstop with h | h
          · left; omega
          · right; exact h)
        (by omega)]
      simp [Scanner.skip, String.push_append_mk]
    · have hc' : L.scanning_table.containsNextState state c = false := by
        simpa using hc
      have hm : L.scanning_table.munch state (c :: cs) = ([], state) := by
        simp [ScanningTable.munch, hc']
      rw [hm]
      rw [Lexer.scan_loop_stop H L sc state buf f (by rw [hp]; exact hcE) (by rw [hp]; exact hc')]
      simp [Scanner.skip, String.append_mk_nil]

theorem ScanningTable.munch_append_drop (t : ScanningTable) :
    ∀ (input : List Char) (state : Int),
      (t.munch state input).1 ++ input.drop (t.munch state input).1.length = input := by
  intro input
  induction input with
  | nil => intro state; simp [ScanningTable.munch]
  | cons c cs ih =>
    intro state
    by_cases hc : t.containsNextState state c = true
    · simp [ScanningTable.munch, hc, ih]
    · simp [ScanningTable.munch, hc]

theorem ScanningTable.munch_length_le (t : ScanningTable) (input : List Char) (state : Int) :
    (t.munch state input).1.length ≤ input.length := by
  have h := congrArg List.length (t.munch_append_drop input state)
  simp only [List.length_append] at h
  omega

theorem ScanningTable.run_munch (t : ScanningTable) :
    ∀ (input : List Char) (state : Int),
      t.run state (t.munch state input).1 = some (t.munch state input).2 := by
  intro input
  induction input with
  | nil => intro state; simp [ScanningTable.munch, ScanningTable.run]
  | cons c cs ih =>
    intro state
    by_cases hc : t.containsNextState state c = true
    · simp [ScanningTable.munch, ScanningTable.run, hc, ih]
    · simp [ScanningTable.munch, ScanningTable.run, hc]

theorem ScanningTable.munch_longest (t : ScanningTable) :
    ∀ (input : List Char) (state : Int) (p r : List Char),
      p ++ r = input → (t.run state p).isSome = true →
      p.length ≤ (t.munch state input).1.length := by
  intro input
  induction input with
  | nil =>
    intro state p r h _
    have : p = [] := (List.append_eq_nil.mp h).1
    simp [this]
  | cons c cs ih =>
    intro state p r h hrun
    cases p with
    | nil => simp
    | cons d ds =>
      simp only [List.cons_append, List.cons.injEq] at h
      obtain ⟨rfl, hds⟩ := h
      by_cases hc : t.containsNextState state d = true
      · simp only [ScanningTable.run, hc, if_true] at hrun
        have := ih _ ds r hds hrun
        simp [ScanningTable.munch, hc]
        exact this
      · simp [ScanningTable.run, hc] at hrun

theorem ScanningTable.munch_stops (t : ScanningTable) :
    ∀ (input : List Char) (state : Int) (c : Char) (cs : List Char),
      input.drop (t.munch state input).1.length = c :: cs →
      t.containsNextState (t.munch state input).2 c = false := by
  intro input
  induction input with
  | nil => intro state c cs h; simp at h
  | cons d ds ih =>
    intro state c cs h
    by_cases hc : t.containsNextState state d = true
    · simp only [ScanningTable.munch, hc, if_true, List.length_cons, List.drop_succ_cons] at h ⊢
      exact ih _ c cs h
    · simp only [ScanningTable.munch, hc, List.length_nil, List.drop_zero,
        List.cons.injEq] at h ⊢
      obtain ⟨rfl, _⟩ := h
      simpa using hc

theorem Scanner.skip_spec :
    ∀ (n : Nat) (s : Scanner), n ≤ s.rest.length →
      (s.skip n).rest = s.rest.drop n ∧ (s.skip n).source = s.source ∧
      (s.skip n).file_path = s.file_path ∧
      (s.skip n).current_character = s.current_character + n := by
  intro n
  induction n with
  | zero => intro s _; simp [Scanner.skip]
  | succ n ih =>
    intro s hn
    cases hr : s.rest with
    | nil => rw [hr] at hn; simp at hn
    | cons c cs =>
      obtain ⟨_, h2, h3, h4, h5⟩ := Scanner.next_of_rest_cons hr
      rw [hr] at hn
      simp only [List.length_cons] at hn
      have := ih s.next.2 (by rw [h2]; omega)
      simp only [Scanner.skip, List.drop_succ_cons]
      rw [this.1, this.2.1, this.2.2.1, this.2.2.2, h2, h3, h4, h5]
      exact ⟨rfl, rfl, rfl, by omega⟩

theorem Lexer.scan_finish_ok {H : Header} {file : String} {column line : Int} {e : ScanEnd}
    {tok : token_t} {sc2 : Scanner} {L2 : Lexer}
    (h : Lexer.scan_finish H file column line e = .ok (tok, sc2, L2)) :
    ∃ cls, e.tokenType = some cls ∧ H.ERROR ≤ cls ∧ cls ≤ H.WHITESPACE ∧
      tok = { type := (H.reserved_words e.tokenEnd).getD cls, lexeme := e.tokenEnd,
              line := some line, column := some column, file := file } ∧
      sc2 = e.scanner ∧ L2 = e.lexer := by
  unfold Lexer.scan_finish at h
  cases hty : e.tokenType with
  | none => simp [hty] at h
  | some cls =>
    simp only [hty] at h
    by_cases hg : H.ERROR ≤ cls ∧ cls ≤ H.WHITESPACE
    · simp only [hg, and_self, if_true, Except.ok.injEq, Prod.mk.injEq] at h
      obtain ⟨h1, h2, h3⟩ := h
      refine ⟨cls, rfl, hg.1, hg.2, ?_, h2.symm, h3.symm⟩
      rw [← h1]
      cases H.reserved_words e.tokenEnd <;> rfl
    · simp [hg] at h

theorem Lexer.scan_finish_of_guard (H : Header) (file : String) (column line : Int) (e : ScanEnd)
    (cls : token_class_t) (hty : e.tokenType = some cls) (hE : H.ERROR ≤ cls)
    (hW : cls ≤ H.WHITESPACE) :
    Lexer.scan_finish H file column line e =
      .ok ({ type := (H.reserved_words e.tokenEnd).getD cls, lexeme := e.tokenEnd,
             line := some line, column := some column, file := file }, e.scanner, e.lexer) := by
  unfold Lexer.scan_finish
  simp only [hty, hE, hW, and_self, if_true]
  cases H.reserved_words e.tokenEnd <;> rfl

theorem Lexer.scan_token_ok {H : Header} {L : Lexer} {fuel : Nat} {sc : Scanner}
    {tok : token_t} {sc2 : Scanner} {L2 : Lexer}
    (h : Lexer.scan_token H L fuel sc = .ok (tok, sc2, L2)) :
    ∃ e, Lexer.scan_loop H fuel L sc 1 "" = .ok e ∧
      Lexer.scan_finish H sc.file_path sc.current_column sc.current_line e = .ok (tok, sc2, L2) := by
  unfold Lexer.scan_token at h
  cases hl : Lexer.scan_loop H fuel L sc 1 "" with
  | error f => simp [hl] at h
  | ok e =>
    simp only [hl] at h
    exact ⟨e, rfl, h⟩

theorem Lexer.scan_token_of_loop {H : Header} {L : Lexer} {fuel : Nat} {sc : Scanner}
    {e : ScanEnd} (h : Lexer.scan_loop H fuel L sc 1 "" = .ok e) :
    Lexer.scan_token H L fuel sc =
      Lexer.scan_finish H sc.file_path sc.current_column sc.current_line e := by
  unfold Lexer.scan_token
  simp only [h]
  rfl

theorem last_token_cons (tok : token_t) (l : List token_t) (token : Option token_t) :
    (match (tok :: l).getLast? with
      | some t => some t
      | none => token) =
    (match l.getLast? with
      | some t => some t
      | none => some tok) := by
  cases l with
  | nil => simp
  | cons y ys =>
    rw [List.getLast?_cons_cons]
    cases h : (y :: ys).getLast? with
    | none => simp [List.getLast?_eq_none_iff] at h
    | some t => rfl

theorem Lexer.lex_loop_eq_scan_all (H : Header) :
    ∀ (fuel : Nat) (L : Lexer) (sc : Scanner) (token : Option token_t) (stream : token_stream_t),
      Lexer.lex_loop H fuel L sc token stream =
        match Lexer.scan_all H fuel L sc with
        | .error f => .error f
        | .ok (scans, scEnd, LEnd) =>
          match (match (scans.map (fun s => s.2)).getLast? with
                  | some t => some t
                  | none => token) with
          | none => .error .undefined_behaviour
          | some last =>
            .ok { token_stream :=
                    stream ++ ((scans.map (fun s => s.2)).filter
                        (fun t => decide (t.type ≠ H.WHITESPACE)) ++
                      [Lexer.eof_token H last]),
                  scanner := scEnd, lexer := LEnd } := by
  intro fuel
  induction fuel with
  | zero => intro L sc token stream; rfl
  | succ n ih =>
    intro L sc token stream
    unfold Lexer.lex_loop Lexer.scan_all
    by_cases hp : sc.peek ≠ '\x00'
    · rw [if_pos hp, if_pos hp]
      cases hs : Lexer.scan_token H L n sc with
      | error f => rfl
      | ok res =>
        obtain ⟨tok, sc1, L1⟩ := res
        simp only []
        by_cases hw : tok.type ≠ H.WHITESPACE
        · rw [if_pos hw, ih]
          cases hall : Lexer.scan_all H n L1 sc1 with
          | error f => rfl
          | ok r =>
            obtain ⟨rest, scE, LE⟩ := r
            simp only [List.map_cons, last_token_cons]
            rw [List.filter_cons_of_pos (by simpa using hw)]
            cases (match (rest.map (fun s => s.2)).getLast? with
                    | some t => some t
                    | none => some tok) with
            | none => rfl
            | some last => simp
        · rw [if_neg hw, ih]
          cases hall : Lexer.scan_all H n L1 sc1 with
          | error f => rfl
          | ok r =>
            obtain ⟨rest, scE, LE⟩ := r
            simp only [List.map_cons, last_token_cons]
            rw [List.filter_cons_of_neg (by simpa using hw)]
    · rw [if_neg hp, if_neg hp]
      cases token with
      | none => rfl
      | some t => simp [Lexer.lex_finish]

theorem Lexer.scan_loop_mono (H : Header) :
    ∀ (fuel : Nat) (L : Lexer) (sc : Scanner) (state : Int) (buf : String) (e : ScanEnd),
      Lexer.scan_loop H fuel L sc state buf = .ok e →
      ∀ k, Lexer.scan_loop H (fuel + k) L sc state buf = .ok e := by
  intro fuel
  induction fuel with
  | zero => intro L sc state buf e h; simp [Lexer.scan_loop] at h
  | succ n ih =>
    intro L sc state buf e h k
    have hk : n + 1 + k = (n + k) + 1 := by omega
    rw [hk]
    unfold Lexer.scan_loop at h ⊢
    by_cases hE : charToInt sc.peek = EOF
    · rw [if_pos hE] at h ⊢
      exact h
    · rw [if_neg hE] at h ⊢
      by_cases hc : L.scanning_table.containsNextState state sc.peek = true
      · simp only [hc, if_true] at h ⊢
        exact ih _ _ _ _ _ h k
      · simp only [hc] at h ⊢
        exact h

theorem Lexer.scan_loop_table (H : Header) :
    ∀ (fuel : Nat) (L : Lexer) (sc : Scanner) (state : Int) (buf : String) (e : ScanEnd),
      Lexer.scan_loop H fuel L sc state buf = .ok e →
      e.lexer.scanning_table = L.scanning_table := by
  intro fuel
  induction fuel with
  | zero => intro L sc state buf e h; simp [Lexer.scan_loop] at h
  | succ n ih =>
    intro L sc state buf e h
    by_cases hE : charToInt sc.peek = EOF
    · unfold Lexer.scan_loop at h
      rw [if_pos hE] at h
      cases h
      rfl
    · by_cases hc : L.scanning_table.containsNextState state sc.peek = true
      · rw [Lexer.scan_loop_step H L sc state buf n hE hc] at h
        exact ih _ _ _ _ _ h
      · rw [Lexer.scan_loop_stop H L sc state buf n hE (by simpa using hc)] at h
        cases h
        rfl

/-- A scan that starts at a character without transition from state 1 returns
(when it returns) without moving the scanner and without changing the
transition table. -/
theorem Lexer.scan_token_stuck {H : Header} {L : Lexer} {fuel : Nat} {sc : Scanner}
    {tok : token_t} {sc1 : Scanner} {L1 : Lexer}
    (hc : L.scanning_table.containsNextState 1 sc.peek = false)
    (h : Lexer.scan_token H L fuel sc = .ok (tok, sc1, L1)) :
    sc1 = sc ∧ L1.scanning_table = L.scanning_table := by
  obtain ⟨e, he, hf⟩ := Lexer.scan_token_ok h
  obtain ⟨cls, hty, _, _, _, hsc, hL⟩ := Lexer.scan_finish_ok hf
  cases fuel with
  | zero => simp [Lexer.scan_loop] at he
  | succ n =>
    by_cases hE : charToInt sc.peek = EOF
    · unfold Lexer.scan_loop at he
      rw [if_pos hE] at he
      cases he
      simp at hty
    · rw [Lexer.scan_loop_stop H L sc 1 "" n hE hc] at he
      cases he
      exact ⟨hsc, by rw [hL]⟩

theorem Lexer.lex_loop_stuck (H : Header) (sc : Scanner) (hpk : sc.peek ≠ '\x00') :
    ∀ (fuel : Nat) (L : Lexer) (token : Option token_t) (stream : token_stream_t),
      L.scanning_table.containsNextState 1 sc.peek = false →
      ∀ r, Lexer.lex_loop H fuel L sc token stream ≠ .ok r := by
  intro fuel
  induction fuel with
  | zero => intro L token stream _ r h; simp [Lexer.lex_loop] at h
  | succ n ih =>
    intro L token stream hc r h
    unfold Lexer.lex_loop at h
    rw [if_pos hpk] at h
    cases hs : Lexer.scan_token H L n sc with
    | error f => rw [hs] at h; cases h
    | ok res =>
      obtain ⟨tok, sc1, L1⟩ := res
      obtain ⟨hsc, hL⟩ := Lexer.scan_token_stuck hc hs
      subst hsc
      rw [hs] at h
      dsimp only at h
      by_cases hw : tok.type ≠ H.WHITESPACE
      · rw [if_pos hw] at h
        exact ih L1 _ _ (by rw [hL]; exact hc) r h
      · rw [if_neg hw] at h
        exact ih L1 _ _ (by rw [hL]; exact hc) r h

/-- When the scan at the cursor can take no transition from state 1, state 1 is
not accepting, and the classification table already holds a class within
ERROR .. WHITESPACE for the state numbered ERROR, every scan returns an error
token without moving, and the loop of `lex` uses up any amount of fuel. -/
theorem Lexer.lex_loop_stuck_out_of_fuel (H : Header) (L : Lexer) (sc : Scanner)
    (cls : token_class_t)
    (hpk : sc.peek ≠ '\x00') (hE : charToInt sc.peek ≠ EOF)
    (hc : L.scanning_table.containsNextState 1 sc.peek = false)
    (hnf : L.token_table.isStateFinal 1 = false)
    (herr : L.token_table.state_to_token_type H.ERROR = some cls)
    (h1 : H.ERROR ≤ cls) (h2 : cls ≤ H.WHITESPACE) :
    ∀ (fuel : Nat) (token : Option token_t) (stream : token_stream_t),
      Lexer.lex_loop H fuel L sc token stream = .error .out_of_fuel := by
  have hcl : Lexer.classify H L 1 = (cls, L.token_table) := by
    simp [Lexer.classify, hnf, TokenTable.getTokenTypeFromFinalState, herr]
  intro fuel
  induction fuel with
  | zero => intro token stream; rfl
  | succ n ih =>
    intro token stream
    unfold Lexer.lex_loop
    rw [if_pos hpk]
    cases n with
    | zero => rfl
    | succ m =>
      have hloop := Lexer.scan_loop_stop H L sc 1 "" m hE hc
      rw [hcl] at hloop
      rw [Lexer.scan_token_of_loop hloop,
        Lexer.scan_finish_of_guard H _ _ _ _ cls rfl h1 h2]
      simp only []
      split
      · exact ih _ _
      · exact ih _ _

theorem take_succ_of_lt (l : List Char) (i : Nat) (h : i < l.length) :
    l.take (i + 1) = l.take i ++ [l[i]] := by
  rw [List.take_succ, List.getElem?_eq_getElem h]
  rfl

theorem lineAt_succ (l : List Char) (i : Nat) (h : i < l.length) :
    lineAt l (i + 1) = if l[i] = '\n' then lineAt l i + 1 else lineAt l i := by
  unfold lineAt
  rw [take_succ_of_lt l i h, List.count_append]
  by_cases hc : l[i] = '\n'
  · simp [hc]; ring
  · have : List.count '\n' [l[i]] = 0 := by
      rw [List.count_eq_zero]
      simpa using fun h' => hc h'.symm
    simp [hc, this]

theorem columnAt_succ (l : List Char) (i : Nat) (h : i < l.length) :
    columnAt l (i + 1) = if l[i] = '\n' then 1 else columnAt l i + 1 := by
  unfold columnAt
  rw [take_succ_of_lt l i h, List.reverse_append]
  by_cases hc : l[i] = '\n'
  · simp [hc, List.takeWhile]
  · simp [hc, List.takeWhile]
    ring

theorem Scanner.ofFile_wellPositioned (file : String) (src : List Char) :
    (Scanner.ofFile file src).WellPositioned := by
  simp [Scanner.WellPositioned, Scanner.ofFile, lineAt, columnAt]

theorem Scanner.next_source (s : Scanner) :
    s.next.2.source = s.source ∧ s.next.2.file_path = s.file_path := by
  unfold Scanner.next
  by_cases h : s.current_character < s.source.length
  · simp only [h, dite_true]
    split <;> exact ⟨rfl, rfl⟩
  · simp [h]

theorem Scanner.next_wellPositioned (s : Scanner) (hw : s.WellPositioned) :
    s.next.2.WellPositioned := by
  unfold Scanner.next
  by_cases h : s.current_character < s.source.length
  · simp only [h, dite_true]
    obtain ⟨h1, h2⟩ := hw
    by_cases hc : s.source[s.current_character] = '\n'
    · simp only [hc, if_true]
      refine ⟨?_, ?_⟩
      · show s.current_line + 1 = lineAt s.source (s.current_character + 1)
        rw [lineAt_succ _ _ h, if_pos hc, h1]
      · show (1 : Int) = columnAt s.source (s.current_character + 1)
        rw [columnAt_succ _ _ h, if_pos hc]
    · simp only [hc, if_false]
      refine ⟨?_, ?_⟩
      · show s.current_line = lineAt s.source (s.current_character + 1)
        rw [lineAt_succ _ _ h, if_neg hc, h1]
      · show s.current_column + 1 = columnAt s.source (s.current_character + 1)
        rw [columnAt_succ _ _ h, if_neg hc, h2]
  · simp only [h, dite_false]
    exact hw

/-- An invariant of the scanner that `Scanner::next` keeps is kept by the loop
of `scan_token`. -/
theorem Lexer.scan_loop_scanner (H : Header) (P : Scanner → Prop)
    (hP : ∀ s, P s → P s.next.2) :
    ∀ (fuel : Nat) (L : Lexer) (sc : Scanner) (state : Int) (buf : String) (e : ScanEnd),
      Lexer.scan_loop H fuel L sc state buf = .ok e → P sc → P e.scanner := by
  intro fuel
  induction fuel with
  | zero => intro L sc state buf e h; simp [Lexer.scan_loop] at h
  | succ n ih =>
    intro L sc state buf e h hsc
    by_cases hE : charToInt sc.peek = EOF
    · unfold Lexer.scan_loop at h
      rw [if_pos hE] at h
      cases h
      exact hsc
    · by_cases hc : L.scanning_table.containsNextState state sc.peek = true
      · rw [Lexer.scan_loop_step H L sc state buf n hE hc] at h
        exact ih _ _ _ _ _ h (hP sc hsc)
      · rw [Lexer.scan_loop_stop H L sc state buf n hE (by simpa using hc)] at h
        cases h
        exact hsc

/-- The text that the loop of `scan_token` leaves in `tokenEnd` extends the text
it started with, and the first character added (if any) is the character
under the cursor at the start. -/
theorem Lexer.scan_loop_buffer (H : Header) :
    ∀ (fuel : Nat) (L : Lexer) (sc : Scanner) (state : Int) (buf : String) (e : ScanEnd),
      Lexer.scan_loop H fuel L sc state buf = .ok e →
      ∃ w : List Char, e.tokenEnd = buf ++ String.mk w ∧ (w = [] ∨ w.head? = some sc.peek) := by
  intro fuel
  induction fuel with
  | zero => intro L sc state buf e h; simp [Lexer.scan_loop] at h
  | succ n ih =>
    intro L sc state buf e h
    by_cases hE : charToInt sc.peek = EOF
    · unfold Lexer.scan_loop at h
      rw [if_pos hE] at h
      cases h
      exact ⟨[], (String.append_mk_nil buf).symm, Or.inl rfl⟩
    · by_cases hc : L.scanning_table.containsNextState state sc.peek = true
      · rw [Lexer.scan_loop_step H L sc state buf n hE hc] at h
        obtain ⟨w, hw, _⟩ := ih _ _ _ _ _ h
        refine ⟨sc.peek :: w, ?_, Or.inr rfl⟩
        rw [hw, String.push_append_mk]
      · rw [Lexer.scan_loop_stop H L sc state buf n hE (by simpa using hc)] at h
        cases h
        exact ⟨[], (String.append_mk_nil buf).symm, Or.inl rfl⟩

theorem Lexer.scan_token_scanner (H : Header) (P : Scanner → Prop)
    (hP : ∀ s, P s → P s.next.2) {L : Lexer} {fuel : Nat} {sc : Scanner}
    {tok : token_t} {sc1 : Scanner} {L1 : Lexer}
    (h : Lexer.scan_token H L fuel sc = .ok (tok, sc1, L1)) (hsc : P sc) : P sc1 := by
  obtain ⟨e, he, hf⟩ := Lexer.scan_token_ok h
  obtain ⟨_, _, _, _, _, hsc1, _⟩ := Lexer.scan_finish_ok hf
  rw [hsc1]
  exact Lexer.scan_loop_scanner H P hP _ _ _ _ _ _ he hsc

/-- Every entry of the record of scans is a call of `scan_token` on a scanner
that is not exhausted and satisfies every invariant kept by `Scanner::next`
that holds at the start; the run ends on an exhausted scanner or on a NUL. -/
theorem Lexer.scan_all_entries (H : Header) (P : Scanner → Prop)
    (hP : ∀ s, P s → P s.next.2) :
    ∀ (fuel : Nat) (L : Lexer) (sc : Scanner) (scans : List (Scanner × token_t))
      (scEnd : Scanner) (LEnd : Lexer),
      Lexer.scan_all H fuel L sc = .ok (scans, scEnd, LEnd) → P sc →
      (∀ x ∈ scans, P x.1 ∧ x.1.peek ≠ '\x00' ∧
        ∃ f L0 sc1 L1, Lexer.scan_token H L0 f x.1 = .ok (x.2, sc1, L1)) ∧
      P scEnd ∧ scEnd.peek = '\x00' := by
  intro fuel
  induction fuel with
  | zero => intro L sc scans scEnd LEnd h; simp [Lexer.scan_all] at h
  | succ n ih =>
    intro L sc scans scEnd LEnd h hsc
    unfold Lexer.scan_all at h
    by_cases hp : sc.peek ≠ '\x00'
    · rw [if_pos hp] at h
      cases hs : Lexer.scan_token H L n sc with
      | error f => rw [hs] at h; cases h
      | ok res =>
        obtain ⟨tok, sc1, L1⟩ := res
        rw [hs] at h
        dsimp only at h
        cases hall : Lexer.scan_all H n L1 sc1 with
        | error f => rw [hall] at h; cases h
        | ok r =>
          obtain ⟨rest, scE, LE⟩ := r
          rw [hall] at h
          dsimp only at h
          injection h with h
          injection h with h1 h2
          injection h2 with h2 h3
          subst h1 h2 h3
          obtain ⟨ih1, ih2, ih3⟩ := ih L1 sc1 rest _ _ hall
            (Lexer.scan_token_scanner H P hP hs hsc)
          refine ⟨?_, ih2, ih3⟩
          intro x hx
          rcases List.mem_cons.mp hx with hx | hx
          · subst hx
            exact ⟨hsc, hp, n, L, sc1, L1, hs⟩
          · exact ih1 x hx
    · rw [if_neg hp] at h
      injection h with h
      injection h with h1 h2
      injection h2 with h2 h3
      subst h1 h2 h3
      exact ⟨by simp, hsc, by simpa using hp⟩

/-- More fuel does not change the token that a scan returns. -/
theorem Lexer.scan_token_mono (H : Header) {L : Lexer} {fuel : Nat} {sc : Scanner}
    {res : token_t × Scanner × Lexer}
    (h : Lexer.scan_token H L fuel sc = .ok res) (k : Nat) :
    Lexer.scan_token H L (fuel + k) sc = .ok res := by
  obtain ⟨tok, sc1, L1⟩ := res
  obtain ⟨e, he, hf⟩ := Lexer.scan_token_ok h
  rw [Lexer.scan_token_of_loop (Lexer.scan_loop_mono H _ _ _ _ _ e he k)]
  exact hf

/-- More fuel does not change the stream that `lex` returns. -/
theorem Lexer.lex_loop_mono (H : Header) :
    ∀ (fuel : Nat) (L : Lexer) (sc : Scanner) (token : Option token_t) (stream : token_stream_t)
      (r : LexEnd),
      Lexer.lex_loop H fuel L sc token stream = .ok r →
      ∀ k, Lexer.lex_loop H (fuel + k) L sc token stream = .ok r := by
  intro fuel
  induction fuel with
  | zero => intro L sc token stream r h; simp [Lexer.lex_loop] at h
  | succ n ih =>
    intro L sc token stream r h k
    have hk : n + 1 + k = (n + k) + 1 := by omega
    rw [hk]
    unfold Lexer.lex_loop at h ⊢
    by_cases hp : sc.peek ≠ '\x00'
    · rw [if_pos hp] at h ⊢
      cases hs : Lexer.scan_token H L n sc with
      | error f => rw [hs] at h; cases h
      | ok res =>
        rw [hs] at h
        rw [Lexer.scan_token_mono H hs k]
        obtain ⟨tok, sc1, L1⟩ := res
        dsimp only at h ⊢
        by_cases hw : tok.type ≠ H.WHITESPACE
        · rw [if_pos hw] at h ⊢
          exact ih _ _ _ _ _ h k
        · rw [if_neg hw] at h ⊢
          exact ih _ _ _ _ _ h k
    · rw [if_neg hp] at h ⊢
      exact h

theorem Lexer.lex_mono (H : Header) (L : Lexer) (fuel : Nat) (file : String) (src : List Char)
    (r : LexEnd) (h : Lexer.lex H L fuel file src = .ok r) (k : Nat) :
    Lexer.lex H L (fuel + k) file src = .ok r :=
  Lexer.lex_loop_mono H fuel L _ none [] r h k

/-- A scan started on a well-positioned scanner returns a token that carries the
line and column of the cursor index, and leaves a well-positioned scanner
over the same source. -/
theorem Lexer.scan_token_position (H : Header) {L : Lexer} {fuel : Nat} {sc : Scanner}
    {tok : token_t} {sc1 : Scanner} {L1 : Lexer}
    (hw : sc.WellPositioned)
    (h : Lexer.scan_token H L fuel sc = .ok (tok, sc1, L1)) :
    tok.line = some (lineAt sc.source sc.current_character) ∧
    tok.column = some (columnAt sc.source sc.current_character) ∧
    tok.file = sc.file_path ∧
    sc1.WellPositioned ∧ sc1.source = sc.source := by
  have hinv := Lexer.scan_token_scanner H
    (fun s => s.source = sc.source ∧ s.WellPositioned)
    (fun s hs => ⟨by rw [(Scanner.next_source s).1]; exact hs.1,
      Scanner.next_wellPositioned s hs.2⟩) h ⟨rfl, hw⟩
  obtain ⟨e, _, hf⟩ := Lexer.scan_token_ok h
  obtain ⟨cls, _, _, _, htok, _, _⟩ := Lexer.scan_finish_ok hf
  refine ⟨by rw [htok, ← hw.1], by rw [htok, ← hw.2], by rw [htok], hinv.2, hinv.1⟩

/-- Maximal munch of a single scan, away from the end-of-input sentinel.  Let `p`
be the longest leading part of the remaining input along which a transition
is defined at every step from state 1, and `q` the state reached after it.
If neither `p` nor the character after it holds the byte 0xFF, and `p` ends
before the end of the source or `q` has no transition on NUL, then the loop
of `scan_token` consumes exactly `p`: the lexeme is `p`, the scanner has
advanced over `p` only, an accepting `q` gives the class of the
classification table for `q` (before the reserved-word lookup), and a token
is returned when that class lies between ERROR and WHITESPACE. -/
theorem scan_token_maximal_munch (H : Header) (L : Lexer) (sc : Scanner) (fuel : Nat)
    (p : List Char) (q : Int)
    (hm : L.scanning_table.munch 1 sc.rest = (p, q))
    (h255 : ∀ c ∈ sc.rest.take (p.length + 1), charToInt c ≠ EOF)
    (hstop : p.length < sc.rest.length ∨ L.scanning_table.containsNextState q '\x00' = false)
    (hfuel : p.length < fuel) :
    (p ++ sc.rest.drop p.length = sc.rest ∧ L.scanning_table.run 1 p = some q ∧
      (∀ p' r' : List Char, p' ++ r' = sc.rest →
        (L.scanning_table.run 1 p').isSome = true → p'.length ≤ p.length)) ∧
    Lexer.scan_loop H fuel L sc 1 "" =
      .ok { tokenType := some (Lexer.classify H L q).1, tokenEnd := String.mk p, state := q,
            scanner := sc.skip p.length,
            lexer := { L with token_table := (Lexer.classify H L q).2 } } ∧
    ((sc.skip p.length).rest = sc.rest.drop p.length ∧
      (sc.skip p.length).current_character = sc.current_character + p.length) ∧
    (∀ cls, L.token_table.state_to_token_type q = some cls →
      Lexer.classify H L q = (cls, L.token_table)) ∧
    (∀ tok sc2 L2, Lexer.scan_token H L fuel sc = .ok (tok, sc2, L2) →
      tok.lexeme = String.mk p ∧ sc2 = sc.skip p.length) ∧
    (∀ cls, L.token_table.state_to_token_type q = some cls →
      H.ERROR ≤ cls → cls ≤ H.WHITESPACE →
      ∃ tok, Lexer.scan_token H L fuel sc = .ok (tok, sc.skip p.length, L) ∧
        tok.lexeme = String.mk p) := by
  have hp : (L.scanning_table.munch 1 sc.rest).1 = p := by rw [hm]
  have hq : (L.scanning_table.munch 1 sc.rest).2 = q := by rw [hm]
  have hloop := Lexer.scan_loop_munch H L sc.rest sc 1 "" fuel rfl
    (by rw [hp]; exact h255) (by rw [hp, hq]; exact hstop) (by rw [hp]; exact hfuel)
  rw [hp, hq] at hloop
  have hbuf : ("" : String) ++ String.mk p = String.mk p := by
    apply String.ext; simp
  rw [hbuf] at hloop
  have hle : p.length ≤ sc.rest.length := by
    rw [← hp]; exact L.scanning_table.munch_length_le _ _
  have hskip := Scanner.skip_spec p.length sc hle
  have hcls : ∀ cls, L.token_table.state_to_token_type q = some cls →
      Lexer.classify H L q = (cls, L.token_table) := by
    intro cls hcls
    simp [Lexer.classify, TokenTable.isStateFinal, TokenTable.getTokenTypeFromFinalState, hcls]
  refine ⟨⟨?_, ?_, ?_⟩, hloop, ⟨hskip.1, hskip.2.2.2⟩, hcls, ?_, ?_⟩
  · have := L.scanning_table.munch_append_drop sc.rest 1
    rw [hp] at this
    exact this
  · have := L.scanning_table.run_munch sc.rest 1
    rw [hp, hq] at this
    exact this
  · intro p' r' h1 h2
    have := L.scanning_table.munch_longest sc.rest 1 p' r' h1 h2
    rw [hp] at this
    exact this
  · intro tok sc2 L2 h
    obtain ⟨e, he, hf⟩ := Lexer.scan_token_ok h
    rw [hloop] at he
    cases he
    obtain ⟨cls, _, _, _, htok, hsc, _⟩ := Lexer.scan_finish_ok hf
    exact ⟨by rw [htok], hsc⟩
  · intro cls h hE hW
    rw [Lexer.scan_token_of_loop hloop,
      Lexer.scan_finish_of_guard H _ _ _ _ cls (by rw [hcls cls h]) hE hW]
    simp only [hcls cls h]
    exact ⟨_, rfl, rfl⟩

/-- With the digits-only table, scanning "123abc" returns the lexeme "123", of the
numeric class, and leaves the scanner in front of "abc". -/
theorem scan_token_maximal_munch_digits :
    (∃ tok, Lexer.scan_token sampleHeader digitsLexer 4 (Scanner.ofFile "f" "123abc".toList) =
        .ok (tok, (Scanner.ofFile "f" "123abc".toList).skip 3, digitsLexer) ∧
        tok.lexeme = "123") ∧
    ((Scanner.ofFile "f" "123abc".toList).skip 3).rest = "abc".toList ∧
    (Lexer.classify sampleHeader digitsLexer 2).1 = 2 :=
  ⟨(scan_token_maximal_munch sampleHeader digitsLexer (Scanner.ofFile "f" "123abc".toList) 4
      "123".toList 2 (by decide) (by decide) (by decide) (by decide)).2.2.2.2.2 2
      (by decide) (by decide) (by decide),
    by decide, by decide⟩

/-- C1 (the code at the failing input): maximal munch fails at the end of the source.
The loop of `scan_token` compares `peek()` with `EOF`, which the scanner never
returns: at the end of the source it goes on with the NUL that `peek()`
returns there.  With a transition on NUL out of state 2, the scan of the
source "a" returns a lexeme of two characters, the letter and a NUL that is
not part of the source, and the class of state 3, while the longest leading
part of the remaining input along which a transition is defined is the
single letter, after which the state is the non-accepting state 2.  A byte
0xFF in the source is taken for `EOF`: on "12" followed by that byte the
digits-only loop stops after "12" without assigning any class. -/
theorem C1_scan_token_appends_phantom_nul :
    ((Lexer.scan_token sampleHeader nulLexer 5 (Scanner.ofFile "f" ['a'])).toOption.map
        (fun r => (r.1.lexeme.toList, r.1.type, r.2.1.current_character)) =
      some (['a', '\x00'], 2, 1) ∧
     nulLexer.scanning_table.munch 1 (Scanner.ofFile "f" ['a']).rest = (['a'], 2) ∧
     nulLexer.token_table.isStateFinal 2 = false) ∧
    ((Lexer.scan_loop sampleHeader 5 digitsLexer (Scanner.ofFile "f" ['1', '2', '\xff']) 1
        "").toOption.map (fun e => (e.tokenType, e.tokenEnd)) = some (none, "12") ∧
     (Lexer.scan_token sampleHeader digitsLexer 5
        (Scanner.ofFile "f" ['1', '2', '\xff'])).toBool = false) := by
  decide!

/-- C2 (amended): error token shape.  Let `p` be the longest leading part of the
remaining input along which a transition is defined from state 1 and `q` the
state reached, with no byte 0xFF in `p` or right after it and, at the end of
the source, no transition on NUL from `q`.  If `q` is not accepting, the
classification table yields ERROR for the state numbered ERROR, and ERROR is
not above WHITESPACE, then `scan_token` returns a token whose lexeme is exactly
`p`, whose class is the reserved-word class of `p` when `p` is a reserved word
and ERROR otherwise, and the character after `p` remains unconsumed. -/
theorem C2_error_token_shape (H : Header) (L : Lexer) (sc : Scanner) (fuel : Nat)
    (p : List Char) (q : Int)
    (hm : L.scanning_table.munch 1 sc.rest = (p, q))
    (h255 : ∀ c ∈ sc.rest.take (p.length + 1), charToInt c ≠ EOF)
    (hstop : p.length < sc.rest.length ∨ L.scanning_table.containsNextState q '\x00' = false)
    (hfuel : p.length < fuel)
    (hnf : L.token_table.isStateFinal q = false)
    (hE : (L.token_table.getTokenTypeFromFinalState H.ERROR).1 = H.ERROR)
    (hEW : H.ERROR ≤ H.WHITESPACE) :
    Lexer.scan_token H L fuel sc =
      .ok ({ type := (H.reserved_words (String.mk p)).getD H.ERROR,
             lexeme := String.mk p,
             line := some sc.current_line, column := some sc.current_column,
             file := sc.file_path },
           sc.skip p.length,
           { L with token_table := (L.token_table.getTokenTypeFromFinalState H.ERROR).2 }) ∧
    (sc.skip p.length).rest = sc.rest.drop p.length ∧
    (sc.skip p.length).current_character = sc.current_character + p.length := by
  have hp : (L.scanning_table.munch 1 sc.rest).1 = p := by rw [hm]
  have hq : (L.scanning_table.munch 1 sc.rest).2 = q := by rw [hm]
  have hloop := Lexer.scan_loop_munch H L sc.rest sc 1 "" fuel rfl
    (by rw [hp]; exact h255) (by rw [hp, hq]; exact hstop) (by rw [hp]; exact hfuel)
  rw [hp, hq] at hloop
  have hbuf : ("" : String) ++ String.mk p = String.mk p := by
    apply String.ext; simp
  rw [hbuf] at hloop
  have hcl : Lexer.classify H L q = L.token_table.getTokenTypeFromFinalState H.ERROR := by
    simp [Lexer.classify, hnf]
  rw [hcl] at hloop
  have hle : p.length ≤ sc.rest.length := by
    rw [← hp]; exact L.scanning_table.munch_length_le _ _
  have hskip := Scanner.skip_spec p.length sc hle
  refine ⟨?_, hskip.1, hskip.2.2.2⟩
  rw [Lexer.scan_token_of_loop hloop,
    Lexer.scan_finish_of_guard H _ _ _ _ H.ERROR (by rw [hE]) (le_refl _) hEW]

/-- Witness of C2: on the source "ix" the scan consumes the letter i, stops at the
letter x in the non-accepting state 2 and returns an error token with the
partial lexeme "i", leaving the scanner in front of the x. -/
theorem C2_error_token_shape_witness :
    Lexer.scan_token sampleHeader ifxLexer 2 (Scanner.ofFile "f" "ix".toList) =
      .ok ({ type := 0, lexeme := "i", line := some 1, column := some 1, file := "f" },
           (Scanner.ofFile "f" "ix".toList).skip 1,
           { ifxLexer with token_table :=
               (ifxLexer.token_table.getTokenTypeFromFinalState 0).2 }) ∧
    ((Scanner.ofFile "f" "ix".toList).skip 1).rest = ['x'] ∧
    ((Scanner.ofFile "f" "ix".toList).skip 1).current_character = 1 :=
  C2_error_token_shape sampleHeader ifxLexer (Scanner.ofFile "f" "ix".toList) 2
    ['i'] 2 (by decide) (by decide) (by decide) (by decide) (by decide) (by decide) (by decide)

/-- Counterexample to C2 as stated: on the source "if(" the scan stops at the bracket in
the non-accepting state 3 after consuming "if"; the token returned has the
lexeme "if" and the class 5 of the reserved word, not the class ERROR. -/
theorem C2_counterexample :
    (Lexer.scan_token sampleHeader ifxLexer 5 (Scanner.ofFile "f" "if(".toList)).toOption.map
        (fun r => (r.1.type, r.1.lexeme, r.2.1.rest)) = some (5, "if", ['(']) ∧
    ifxLexer.scanning_table.munch 1 "if(".toList = ("if".toList, 3) ∧
    ifxLexer.token_table.isStateFinal 3 = false ∧
    ifxLexer.scanning_table.containsNextState 3 '(' = false ∧
    sampleHeader.ERROR = 0 := by
  decide

/-- C3 (the code at the failing input): with the digits-only table, `lex` never returns
a token stream on the source "123abc", whatever the header and however much
fuel it is given: the scan at the letter a takes no transition, returns
without consuming it, and the loop of `lex` calls it again on the same
character.  With the sample header no undefined path is involved: the run
uses up every amount of fuel. -/
theorem C3_lex_does_not_terminate :
    (∀ (H : Header) (fuel : Nat) (r : LexEnd),
      Lexer.lex H digitsLexer fuel "f" "123abc".toList ≠ .ok r) ∧
    (∀ fuel : Nat,
      Lexer.lex sampleHeader digitsLexer fuel "f" "123abc".toList = .error .out_of_fuel) := by
  have hmunch : digitsLexer.scanning_table.munch 1 (Scanner.ofFile "f" "123abc".toList).rest =
      ("123".toList, 2) := by decide
  have hloop : ∀ (H : Header) (n : Nat),
      Lexer.scan_loop H (n + 4) digitsLexer (Scanner.ofFile "f" "123abc".toList) 1 "" =
        .ok { tokenType := some (Lexer.classify H digitsLexer 2).1,
              tokenEnd := "123", state := 2,
              scanner := (Scanner.ofFile "f" "123abc".toList).skip 3,
              lexer := { digitsLexer with
                token_table := (Lexer.classify H digitsLexer 2).2 } } := by
    intro H n
    have := Lexer.scan_loop_munch H digitsLexer _ (Scanner.ofFile "f" "123abc".toList) 1 ""
      (n + 4) rfl (by rw [hmunch]; decide) (by rw [hmunch]; decide)
      (by rw [hmunch]; simp)
    rw [hmunch] at this
    exact this
  have hpk0 : (Scanner.ofFile "f" "123abc".toList).peek ≠ '\x00' := by decide
  have hpk3 : ((Scanner.ofFile "f" "123abc".toList).skip 3).peek ≠ '\x00' := by decide
  have hE3 : charToInt ((Scanner.ofFile "f" "123abc".toList).skip 3).peek ≠ EOF := by decide
  have hc3 : digitsLexer.scanning_table.containsNextState 1
      ((Scanner.ofFile "f" "123abc".toList).skip 3).peek = false := by decide
  constructor
  · intro H fuel r h
    unfold Lexer.lex at h
    cases fuel with
    | zero => simp [Lexer.lex_loop] at h
    | succ n =>
      unfold Lexer.lex_loop at h
      rw [if_pos hpk0] at h
      cases hs : Lexer.scan_token H digitsLexer n (Scanner.ofFile "f" "123abc".toList) with
      | error f => rw [hs] at h; cases h
      | ok res =>
        obtain ⟨tok, sc1, L1⟩ := res
        obtain ⟨e, he, hf⟩ := Lexer.scan_token_ok hs
        have he4 := Lexer.scan_loop_mono H n _ _ _ _ e he 4
        rw [hloop H n] at he4
        obtain ⟨cls, _, _, _, _, hsc, hL⟩ := Lexer.scan_finish_ok hf
        injection he4 with he4
        subst he4
        simp only at hsc hL
        subst hsc
        have hc1 : L1.scanning_table.containsNextState 1
            ((Scanner.ofFile "f" "123abc".toList).skip 3).peek = false := by
          rw [hL]; exact hc3
        rw [hs] at h
        dsimp only at h
        split at h
        · exact Lexer.lex_loop_stuck H _ hpk3 n L1 _ _ hc1 r h
        · exact Lexer.lex_loop_stuck H _ hpk3 n L1 _ _ hc1 r h
  · intro fuel
    unfold Lexer.lex
    match fuel with
    | 0 => rfl
    | 1 => rfl
    | 2 => rfl
    | 3 => rfl
    | 4 => rfl
    | n + 5 =>
      unfold Lexer.lex_loop
      rw [if_pos hpk0]
      have h1 := hloop sampleHeader n
      have hcl2 : Lexer.classify sampleHeader digitsLexer 2 = (2, digitsLexer.token_table) := by
        rfl
      rw [hcl2] at h1
      rw [Lexer.scan_token_of_loop h1,
        Lexer.scan_finish_of_guard sampleHeader _ _ _ _ 2 rfl (by decide) (by decide)]
      simp only []
      rw [if_pos (by decide)]
      unfold Lexer.lex_loop
      rw [if_pos hpk3]
      have h2 := Lexer.scan_loop_stop sampleHeader digitsLexer
        ((Scanner.ofFile "f" "123abc".toList).skip 3) 1 "" (n + 2) hE3 hc3
      rw [Lexer.scan_token_of_loop h2,
        Lexer.scan_finish_of_guard sampleHeader _ _ _ _ 0 (by decide) (by decide) (by decide)]
      simp only []
      have hstuck := Lexer.lex_loop_stuck_out_of_fuel sampleHeader
        { digitsLexer with
          token_table := (Lexer.classify sampleHeader digitsLexer 1).2 }
        ((Scanner.ofFile "f" "123abc".toList).skip 3) 0 hpk3 hE3 hc3 (by decide) (by decide)
        (by decide) (by decide) (n + 3)
      split
      · exact hstuck _ _
      · exact hstuck _ _

theorem Lexer.lex_eq_scan_all (H : Header) (L : Lexer) (fuel : Nat) (file : String)
    (src : List Char) :
    Lexer.lex H L fuel file src =
      match Lexer.scan_all H fuel L (Scanner.ofFile file src) with
      | .error f => .error f
      | .ok (scans, scEnd, LEnd) =>
        match (scans.map (fun s => s.2)).getLast? with
        | none => .error .undefined_behaviour
        | some last =>
          .ok { token_stream :=
                  (scans.map (fun s => s.2)).filter (fun t => decide (t.type ≠ H.WHITESPACE)) ++
                    [Lexer.eof_token H last],
                scanner := scEnd, lexer := LEnd } := by
  unfold Lexer.lex
  rw [Lexer.lex_loop_eq_scan_all]
  cases Lexer.scan_all H fuel L (Scanner.ofFile file src) with
  | error f => rfl
  | ok r =>
    obtain ⟨scans, scE, LE⟩ := r
    simp only [List.nil_append]
    cases (scans.map (fun s => s.2)).getLast? <;> rfl

theorem Lexer.lex_ok {H : Header} {L : Lexer} {fuel : Nat} {file : String} {src : List Char}
    {r : LexEnd} (h : Lexer.lex H L fuel file src = .ok r) :
    ∃ scans scEnd LEnd, Lexer.scan_all H fuel L (Scanner.ofFile file src) =
        .ok (scans, scEnd, LEnd) ∧
      r.token_stream = Lexer.stream_of_scans H scans ∧ r.scanner = scEnd ∧ r.lexer = LEnd ∧
      ∃ last, (scans.map (fun s => s.2)).getLast? = some last ∧
        r.token_stream =
          (scans.map (fun s => s.2)).filter (fun t => decide (t.type ≠ H.WHITESPACE)) ++
            [Lexer.eof_token H last] := by
  rw [Lexer.lex_eq_scan_all] at h
  cases hall : Lexer.scan_all H fuel L (Scanner.ofFile file src) with
  | error f => rw [hall] at h; cases h
  | ok res =>
    obtain ⟨scans, scE, LE⟩ := res
    rw [hall] at h
    dsimp only at h
    cases hlast : (scans.map (fun s => s.2)).getLast? with
    | none => rw [hlast] at h; cases h
    | some last =>
      rw [hlast] at h
      dsimp only at h
      injection h with h
      subst h
      refine ⟨scans, scE, LE, rfl, ?_, rfl, rfl, last, hlast, rfl⟩
      simp [Lexer.stream_of_scans, hlast]

theorem Lexer.eof_token_shape (H : Header) (token : token_t) :
    (Lexer.eof_token H token).type = H.END_OF_FILE ∧ (Lexer.eof_token H token).lexeme = "" ∧
    (Lexer.eof_token H token).line = token.line ∧
    (Lexer.eof_token H token).column = token.column ∧
    (Lexer.eof_token H token).file = token.file :=
  ⟨rfl, rfl, rfl, rfl, rfl⟩

/-- Every token of a stream that `lex` returns has an assigned line and column: the
tokens come from scans, and the End-Of-File token is a copy of the last of
them. -/
theorem Lexer.lex_ok_assigned {H : Header} {L : Lexer} {fuel : Nat} {file : String}
    {src : List Char} {r : LexEnd} (h : Lexer.lex H L fuel file src = .ok r) :
    ∀ t ∈ r.token_stream, ∃ line column, t.line = some line ∧ t.column = some column := by
  obtain ⟨scans, scE, LE, hall, _, _, _, last, hlast, hstream⟩ := Lexer.lex_ok h
  obtain ⟨hent, _, _⟩ := Lexer.scan_all_entries H (fun _ => True) (fun _ _ => trivial)
    fuel L _ scans scE LE hall trivial
  have hscan : ∀ t ∈ scans.map (fun s => s.2),
      ∃ line column, t.line = some line ∧ t.column = some column := by
    intro t ht
    rw [List.mem_map] at ht
    obtain ⟨x, hx, hxt⟩ := ht
    obtain ⟨_, _, f, L0, sc1, L1, hs⟩ := hent x hx
    obtain ⟨e, _, hf⟩ := Lexer.scan_token_ok hs
    obtain ⟨cls, _, _, _, htok, _, _⟩ := Lexer.scan_finish_ok hf
    rw [← hxt, htok]
    exact ⟨_, _, rfl, rfl⟩
  intro t ht
  rw [hstream, List.mem_append] at ht
  rcases ht with ht | ht
  · exact hscan t (List.mem_filter.mp ht).1
  · rw [List.mem_singleton] at ht
    rw [ht]
    exact hscan last (List.mem_of_getLast?_eq_some hlast)

theorem exists_ok_of_toBool {ε α : Type} (x : Except ε α) (h : x.toBool = true) :
    ∃ r, x = .ok r := by
  cases x with
  | error e => simp [Except.toBool] at h
  | ok r => exact ⟨r, rfl⟩

/-- C5: whitespace is discarded and nothing else is.  For every header, pair of
tables, fuel and source text, `lex` returns exactly when the successive
single-token scans all return and there is at least one of them (with none,
the End-Of-File token would be a copy of a token whose line and column were
never assigned), and its stream is then the sequence of their tokens, in scan
order, without those of class WHITESPACE, followed by the End-Of-File token;
hence (END_OF_FILE and WHITESPACE being two members of the enumeration) no
token of the stream has the class WHITESPACE. -/
theorem C5_lex_discards_whitespace_only (H : Header) (L : Lexer) (fuel : Nat) (file : String)
    (src : List Char) :
    Lexer.lex H L fuel file src =
      (match Lexer.scan_all H fuel L (Scanner.ofFile file src) with
        | .error f => .error f
        | .ok (scans, scEnd, LEnd) =>
          match (scans.map (fun s => s.2)).getLast? with
          | none => .error .undefined_behaviour
          | some last =>
            .ok { token_stream :=
                    (scans.map (fun s => s.2)).filter (fun t => decide (t.type ≠ H.WHITESPACE)) ++
                      [Lexer.eof_token H last],
                  scanner := scEnd, lexer := LEnd }) ∧
    (∀ token, (Lexer.eof_token H token).type = H.END_OF_FILE ∧
      (Lexer.eof_token H token).lexeme = "") ∧
    (H.END_OF_FILE ≠ H.WHITESPACE →
      ∀ r, Lexer.lex H L fuel file src = .ok r →
        ∀ t ∈ r.token_stream, t.type ≠ H.WHITESPACE) := by
  refine ⟨Lexer.lex_eq_scan_all H L fuel file src,
    fun token => ⟨(Lexer.eof_token_shape H token).1, (Lexer.eof_token_shape H token).2.1⟩, ?_⟩
  intro hne r h t ht
  obtain ⟨scans, scE, LE, _, _, _, _, last, _, hstream⟩ := Lexer.lex_ok h
  rw [hstream, List.mem_append, List.mem_filter] at ht
  rcases ht with ⟨_, ht⟩ | ht
  · simpa using ht
  · rw [List.mem_singleton] at ht
    rw [ht, (Lexer.eof_token_shape H _).1]
    exact hne

/-- Witness of C5: on the source "1 1", a newline and "1" the four scans return the
tokens "1", blank, "1", newline, "1"; the stream keeps the three numeric
tokens and ends with the End-Of-File token. -/
theorem C5_lex_discards_whitespace_only_witness :
    (Lexer.scan_all sampleHeader 9 spaceLexer (Scanner.ofFile "f" "1 1\n1".toList)).toOption.map
        (fun r => r.1.map (fun s => (s.2.type, s.2.lexeme))) =
      some [(2, "1"), (3, " "), (2, "1"), (3, "\n"), (2, "1")] ∧
    (Lexer.lex sampleHeader spaceLexer 9 "f" "1 1\n1".toList).toOption.map
        (fun r => r.token_stream.map (fun t => (t.type, t.lexeme))) =
      some [(2, "1"), (2, "1"), (2, "1"), (4, "")] ∧
    ∃ r, Lexer.lex sampleHeader spaceLexer 9 "f" "1 1\n1".toList = .ok r ∧
      ∀ t ∈ r.token_stream, t.type ≠ sampleHeader.WHITESPACE := by
  refine ⟨by decide!, by decide!, ?_⟩
  obtain ⟨r, hr⟩ := exists_ok_of_toBool
    (Lexer.lex sampleHeader spaceLexer 9 "f" "1 1\n1".toList) (by decide!)
  exact ⟨r, hr,
    (C5_lex_discards_whitespace_only sampleHeader spaceLexer 9 "f" "1 1\n1".toList).2.2
      (by decide) r hr⟩

/-- C6: position correctness.  The scanner of `lex` starts at line 1, column 1, and a
scan started on a scanner whose counters are the line and column of its
cursor returns a token with that line and column (1 plus the number of
newlines before the cursor, and 1 plus the number of characters since the
last of them) and leaves such a scanner over the same source.  Hence, for
every source text, every token produced by a single-token scan inside `lex`
carries the line and column of the index at which its scan began; that index
lies inside the source, and the first character of a non-empty lexeme is the
character at that index. -/
theorem C6_token_positions (H : Header) (L : Lexer) (fuel : Nat) (file : String)
    (src : List Char) :
    ((Scanner.ofFile file src).current_line = 1 ∧ (Scanner.ofFile file src).current_column = 1 ∧
      (Scanner.ofFile file src).WellPositioned) ∧
    (∀ (L0 : Lexer) (f : Nat) (sc : Scanner) (tok : token_t) (sc1 : Scanner) (L1 : Lexer),
      sc.WellPositioned → Lexer.scan_token H L0 f sc = .ok (tok, sc1, L1) →
      tok.line = some (lineAt sc.source sc.current_character) ∧
      tok.column = some (columnAt sc.source sc.current_character) ∧
      sc1.WellPositioned ∧ sc1.source = sc.source) ∧
    (∀ r, Lexer.lex H L fuel file src = .ok r →
      ∃ scans scEnd LEnd,
        Lexer.scan_all H fuel L (Scanner.ofFile file src) = .ok (scans, scEnd, LEnd) ∧
        r.token_stream = Lexer.stream_of_scans H scans ∧
        ∀ x ∈ scans,
          x.1.current_character < src.length ∧
          x.2.line = some x.1.current_line ∧ x.2.column = some x.1.current_column ∧
          x.2.line = some (lineAt src x.1.current_character) ∧
          x.2.column = some (columnAt src x.1.current_character) ∧
          (x.2.lexeme = "" ∨ x.2.lexeme.toList.head? = src[x.1.current_character]?)) := by
  refine ⟨⟨rfl, rfl, Scanner.ofFile_wellPositioned file src⟩, ?_, ?_⟩
  · intro L0 f sc tok sc1 L1 hw hs
    obtain ⟨h1, h2, _, h4, h5⟩ := Lexer.scan_token_position H hw hs
    exact ⟨h1, h2, h4, h5⟩
  intro r h
  obtain ⟨scans, scE, LE, hall, hstream, _, _⟩ := Lexer.lex_ok h
  refine ⟨scans, scE, LE, hall, hstream, ?_⟩
  obtain ⟨hent, _, _⟩ := Lexer.scan_all_entries H
    (fun s => s.source = src ∧ s.WellPositioned)
    (fun s hs => ⟨by rw [(Scanner.next_source s).1]; exact hs.1,
      Scanner.next_wellPositioned s hs.2⟩)
    fuel L _ scans scE LE hall ⟨rfl, Scanner.ofFile_wellPositioned file src⟩
  intro x hx
  obtain ⟨⟨hsrc, hline, hcol⟩, hpk, f, L0, sc1, L1, hs⟩ := hent x hx
  have hlt : x.1.current_character < x.1.source.length := by
    by_contra hge
    apply hpk
    simp [Scanner.peek, hge]
  have hpeek : x.1.source[x.1.current_character]? = some x.1.peek := by
    simp [Scanner.peek, hlt, List.getElem?_eq_getElem]
  obtain ⟨e, he, hf⟩ := Lexer.scan_token_ok hs
  obtain ⟨cls, _, _, _, htok, _, _⟩ := Lexer.scan_finish_ok hf
  obtain ⟨w, hw, hhead⟩ := Lexer.scan_loop_buffer H _ _ _ _ _ _ he
  have hlex : x.2.lexeme = String.mk w := by
    rw [htok]
    show e.tokenEnd = String.mk w
    rw [hw]
    apply String.ext
    simp
  rw [hsrc] at hlt hline hcol hpeek
  refine ⟨hlt, by rw [htok], by rw [htok], by rw [htok, ← hline], by rw [htok, ← hcol], ?_⟩
  rcases hhead with hnil | hhd
  · left
    rw [hlex, hnil]
  · right
    rw [hlex, hpeek]
    exact hhd

/-- Witness of C6: the positions of the tokens scanned from the source "1 1", a
newline and "1". -/
theorem C6_token_positions_witness :
    (Lexer.scan_all sampleHeader 9 spaceLexer (Scanner.ofFile "f" "1 1\n1".toList)).toOption.map
        (fun r => r.1.map (fun s => (s.1.current_character, s.2.lexeme, s.2.line, s.2.column))) =
      some [(0, "1", some 1, some 1), (1, " ", some 1, some 2), (2, "1", some 1, some 3),
            (3, "\n", some 1, some 4), (4, "1", some 2, some 1)] ∧
    ∃ r, Lexer.lex sampleHeader spaceLexer 9 "f" "1 1\n1".toList = .ok r ∧
      ∃ scans scEnd LEnd,
        Lexer.scan_all sampleHeader 9 spaceLexer (Scanner.ofFile "f" "1 1\n1".toList) =
          .ok (scans, scEnd, LEnd) ∧
        r.token_stream = Lexer.stream_of_scans sampleHeader scans ∧
        ∀ x ∈ scans,
          x.1.current_character < "1 1\n1".toList.length ∧
          x.2.line = some x.1.current_line ∧ x.2.column = some x.1.current_column ∧
          x.2.line = some (lineAt "1 1\n1".toList x.1.current_character) ∧
          x.2.column = some (columnAt "1 1\n1".toList x.1.current_character) ∧
          (x.2.lexeme = "" ∨
            x.2.lexeme.toList.head? = "1 1\n1".toList[x.1.current_character]?) := by
  refine ⟨by decide!, ?_⟩
  obtain ⟨r, hr⟩ := exists_ok_of_toBool
    (Lexer.lex sampleHeader spaceLexer 9 "f" "1 1\n1".toList) (by decide!)
  exact ⟨r, hr,
    (C6_token_positions sampleHeader spaceLexer 9 "f" "1 1\n1".toList).2.2 r hr⟩

/-- C7 (the code at the failing input): the End-Of-File token keeps the position of the
last token scanned instead of the position where the cursor ended.  On the
source "12" the digits-only lexer returns the numeric token at line 1, column
1 and the End-Of-File token at line 1, column 1 as well, while the scanner
ended at line 1, column 3; on the empty source the scanner is at line 1,
column 1 and no scan takes place, so the line and column of the End-Of-File
token were never assigned and the run has no defined stream. -/
theorem C7_eof_token_position_is_stale :
    ((Lexer.lex sampleHeader digitsLexer 5 "f" "12".toList).toOption.map
        (fun r => r.token_stream.map (fun t => (t.type, t.lexeme))) =
      some [(2, "12"), (4, "")] ∧
     (Lexer.lex sampleHeader digitsLexer 5 "f" "12".toList).toOption.map
        (fun r => r.token_stream.map (fun t => (t.line, t.column))) =
      some [(some 1, some 1), (some 1, some 1)] ∧
     (Lexer.lex sampleHeader digitsLexer 5 "f" "12".toList).toOption.map
        (fun r => (r.scanner.current_line, r.scanner.current_column)) = some (1, 3)) ∧
    ((Scanner.ofFile "f" []).current_line = 1 ∧ (Scanner.ofFile "f" []).current_column = 1 ∧
     (Scanner.ofFile "f" []).peek = '\x00' ∧
     Lexer.lex sampleHeader digitsLexer 5 "f" [] = .error .undefined_behaviour) :=
  ⟨by decide!, rfl, rfl, rfl, rfl⟩

/-- C8: reserved-word override.  A single-token scan returns a token exactly when
its loop ends with a class determined by the automaton (the class of the
accepting state, or the class of the error branch) that lies between ERROR
and WHITESPACE; whatever that class is, the class of the token returned is
the class of the reserved-word table for the exact lexeme when the lexeme is
a key of that table, and the class determined by the automaton otherwise. -/
theorem C8_reserved_word_override (H : Header) (L : Lexer) (fuel : Nat) (sc : Scanner)
    (tok : token_t) (sc1 : Scanner) (L1 : Lexer) :
    Lexer.scan_token H L fuel sc = .ok (tok, sc1, L1) ↔
      ∃ e cls, Lexer.scan_loop H fuel L sc 1 "" = .ok e ∧ e.tokenType = some cls ∧
        H.ERROR ≤ cls ∧ cls ≤ H.WHITESPACE ∧
        tok.lexeme = e.tokenEnd ∧
        (∀ k, H.reserved_words tok.lexeme = some k → tok.type = k) ∧
        (H.reserved_words tok.lexeme = none → tok.type = cls) ∧
        tok.line = some sc.current_line ∧ tok.column = some sc.current_column ∧
        tok.file = sc.file_path ∧ sc1 = e.scanner ∧ L1 = e.lexer := by
  constructor
  · intro h
    obtain ⟨e, he, hf⟩ := Lexer.scan_token_ok h
    obtain ⟨cls, hty, hE, hW, htok, hsc, hL⟩ := Lexer.scan_finish_ok hf
    refine ⟨e, cls, he, hty, hE, hW, by rw [htok], ?_, ?_, by rw [htok], by rw [htok],
      by rw [htok], hsc, hL⟩
    · intro k hk
      rw [htok] at hk ⊢
      simp only at hk
      simp [hk]
    · intro hk
      rw [htok] at hk ⊢
      simp only at hk
      simp [hk]
  · rintro ⟨e, cls, he, hty, hE, hW, hlex, hres, hnone, hline, hcol, hfile, hsc, hL⟩
    rw [Lexer.scan_token_of_loop he, Lexer.scan_finish_of_guard H _ _ _ e cls hty hE hW, hsc, hL]
    have htype : tok.type = (H.reserved_words e.tokenEnd).getD cls := by
      rw [hlex] at hres hnone
      cases hr : H.reserved_words e.tokenEnd with
      | none => simpa using hnone hr
      | some k => simpa using hres k hr
    cases tok
    simp only at hlex hline hcol hfile htype
    subst hlex hline hcol hfile htype
    rfl

/-- Witness of C8: the word "if" is scanned by the automaton as an identifier (class
1); "if" is a reserved word of class 5 in the sample header, and the token
returned has the class 5. -/
theorem C8_reserved_word_override_witness :
    (Lexer.scan_loop sampleHeader 3 wordLexer (Scanner.ofFile "f" "if".toList) 1 "").toOption.map
        (fun e => (e.tokenType, e.tokenEnd)) = some (some 1, "if") ∧
    sampleHeader.reserved_words "if" = some 5 ∧
    (Lexer.scan_token sampleHeader wordLexer 3 (Scanner.ofFile "f" "if".toList)).toOption.map
        (fun r => (r.1.type, r.1.lexeme)) = some (5, "if") ∧
    ∃ tok sc1 L1 e cls,
      Lexer.scan_token sampleHeader wordLexer 3 (Scanner.ofFile "f" "if".toList) =
        .ok (tok, sc1, L1) ∧
      Lexer.scan_loop sampleHeader 3 wordLexer (Scanner.ofFile "f" "if".toList) 1 "" = .ok e ∧
      e.tokenType = some cls ∧ tok.lexeme = e.tokenEnd ∧
      (∀ k, sampleHeader.reserved_words tok.lexeme = some k → tok.type = k) := by
  refine ⟨by decide!, by decide, by decide!, ?_⟩
  obtain ⟨res, hres⟩ := exists_ok_of_toBool
    (Lexer.scan_token sampleHeader wordLexer 3 (Scanner.ofFile "f" "if".toList)) (by decide!)
  obtain ⟨e, cls, hloop, hty, _, _, hlex, hk, _⟩ :=
    (C8_reserved_word_override sampleHeader wordLexer 3 (Scanner.ofFile "f" "if".toList)
      res.1 res.2.1 res.2.2).mp hres
  exact ⟨res.1, res.2.1, res.2.2, e, cls, hres, hloop, hty, hlex, hk⟩

/-- The result of `atoi` is an `int`. -/
theorem atoi_range (str : String) : -2147483648 ≤ atoi str ∧ atoi str ≤ 2147483647 := by
  unfold atoi longToInt
  omega

theorem ScanningTable.fill_cell_isSome (table : CsvReader) (k : Nat) (sym : Char)
    (m : state_t × Char → Option state_t) (r : Nat) (s : Int) (c : Char) :
    (ScanningTable.fill_cell table k sym m r (s, c)).isSome = true ↔
      (m (s, c)).isSome = true ∨
        (atoi (table.get r 0) = s ∧ sym = c ∧ table.get r k ≠ "") := by
  unfold ScanningTable.fill_cell
  by_cases he : table.get r k = ""
  · simp [he]
  · simp only [ne_eq, he, not_false_eq_true, if_true, map_assign]
    by_cases hk : (s, c) = (atoi (table.get r 0), sym)
    · rw [if_pos hk]
      simp only [Prod.mk.injEq] at hk
      simp [hk.1, hk.2]
    · rw [if_neg hk]
      simp only [Prod.mk.injEq, not_and] at hk
      constructor
      · intro h; exact Or.inl h
      · rintro (h | ⟨h1, h2, _⟩)
        · exact h
        · exact absurd h2.symm (hk h1.symm)

theorem ScanningTable.fill_rows_isSome (table : CsvReader) (k : Nat) (sym : Char)
    (s : Int) (c : Char) :
    ∀ (rows : List Nat) (m : state_t × Char → Option state_t),
      ((rows.foldl (ScanningTable.fill_cell table k sym) m) (s, c)).isSome = true ↔
        (m (s, c)).isSome = true ∨
          ∃ r ∈ rows, atoi (table.get r 0) = s ∧ sym = c ∧ table.get r k ≠ "" := by
  intro rows
  induction rows with
  | nil => intro m; simp
  | cons r rs ih =>
    intro m
    rw [List.foldl_cons, ih, ScanningTable.fill_cell_isSome]
    constructor
    · rintro ((h | h) | ⟨r', hr', h⟩)
      · exact Or.inl h
      · exact Or.inr ⟨r, List.mem_cons_self _ _, h⟩
      · exact Or.inr ⟨r', List.mem_cons_of_mem _ hr', h⟩
    · rintro (h | ⟨r', hr', h⟩)
      · exact Or.inl (Or.inl h)
      · rcases List.mem_cons.mp hr' with rfl | hr'
        · exact Or.inl (Or.inr h)
        · exact Or.inr ⟨r', hr', h⟩

theorem ScanningTable.fill_columns_isSome (table : CsvReader) (s : Int) (c : Char) :
    ∀ (cols : List Nat) (m : state_t × Char → Option state_t),
      ((cols.foldl (ScanningTable.fill_column table) m) (s, c)).isSome = true ↔
        (m (s, c)).isSome = true ∨
          ∃ k ∈ cols, ∃ r ∈ List.range' 1 (table.getRows - 1),
            atoi (table.get r 0) = s ∧
              ScanningTable.map_string_to_char (table.get 0 k) = c ∧ table.get r k ≠ "" := by
  intro cols
  induction cols with
  | nil => intro m; simp
  | cons k ks ih =>
    intro m
    rw [List.foldl_cons, ih]
    unfold ScanningTable.fill_column
    rw [ScanningTable.fill_rows_isSome]
    constructor
    · rintro ((h | h) | ⟨k', hk', h⟩)
      · exact Or.inl h
      · exact Or.inr ⟨k, List.mem_cons_self _ _, h⟩
      · exact Or.inr ⟨k', List.mem_cons_of_mem _ hk', h⟩
    · rintro (h | ⟨k', hk', h⟩)
      · exact Or.inl (Or.inl h)
      · rcases List.mem_cons.mp hk' with rfl | hk'
        · exact Or.inl (Or.inr h)
        · exact Or.inr ⟨k', hk', h⟩

theorem mem_range_from_one (n x : Nat) : x ∈ List.range' 1 (n - 1) ↔ 1 ≤ x ∧ x < n := by
  rw [List.mem_range'_1]
  omega

/-- C9: the transition table records exactly the non-empty cells.  For every grid,
`containsNextState(s, c)` holds after construction if and only if there are a
row r ≥ 1 and a column k ≥ 1 of the grid such that the integer parsed from
cell (r, 0) is s, the header cell (0, k) normalizes to the symbol c, and the
cell (r, k) is not empty; an empty cell creates no transition.  The integer
parsed is the `int` that `atoi` returns: a row whose state cell reads
"4294967297" records its transitions under the state 1, and no state is
outside the range of `int`. -/
theorem C9_transition_table_records_nonempty_cells (table : CsvReader) (s : Int) (c : Char) :
    ((ScanningTable.ofCsv table).containsNextState s c = true ↔
      ∃ r k, 1 ≤ r ∧ r < table.getRows ∧ 1 ≤ k ∧ k < table.getColumns ∧
        atoi (table.get r 0) = s ∧
        ScanningTable.map_string_to_char (table.get 0 k) = c ∧
        table.get r k ≠ "") ∧
    ((ScanningTable.ofCsv table).containsNextState s c = true →
      -2147483648 ≤ s ∧ s ≤ 2147483647) ∧
    (atoi "4294967297" = 1 ∧
     (ScanningTable.ofCsv (CsvReader.ofGrid [["", "a"], ["4294967297", "2"]])).containsNextState
        1 'a' = true ∧
     (ScanningTable.ofCsv (CsvReader.ofGrid [["", "a"], ["4294967297", "2"]])).containsNextState
        4294967297 'a' = false ∧
     (ScanningTable.ofCsv (CsvReader.ofGrid [["", "a"], ["1", ""]])).containsNextState
        1 'a' = false) := by
  have hiff : (ScanningTable.ofCsv table).containsNextState s c = true ↔
      ∃ r k, 1 ≤ r ∧ r < table.getRows ∧ 1 ≤ k ∧ k < table.getColumns ∧
        atoi (table.get r 0) = s ∧
        ScanningTable.map_string_to_char (table.get 0 k) = c ∧
        table.get r k ≠ "" := by
    unfold ScanningTable.containsNextState ScanningTable.ofCsv
    rw [ScanningTable.fill_columns_isSome]
    constructor
    · rintro (h | ⟨k, hk, r, hr, h1, h2, h3⟩)
      · simp at h
      · rw [mem_range_from_one] at hk hr
        exact ⟨r, k, hr.1, hr.2, hk.1, hk.2, h1, h2, h3⟩
    · rintro ⟨r, k, hr1, hr2, hk1, hk2, h1, h2, h3⟩
      exact Or.inr ⟨k, (mem_range_from_one _ _).mpr ⟨hk1, hk2⟩, r,
        (mem_range_from_one _ _).mpr ⟨hr1, hr2⟩, h1, h2, h3⟩
  refine ⟨hiff, ?_, by decide!⟩
  intro h
  obtain ⟨r, k, _, _, _, _, hs, _, _⟩ := hiff.mp h
  rw [← hs]
  exact atoi_range _

/-- C10 (the code at the failing input): `getNextState` returns a `char`.  The grid with
the single cell "300" in the row of state 1 and the column of the letter a
records the target 300 (the text parses to 300, the transition is present and
the map holds 300), but `getNextState(1, a)` returns 44 and the state of the
engine after the transition is 44; state 300 being the accepting state, the
scan of "a" ends in the error branch where the tables describe an identifier.
A target of 128 is returned as -128. -/
theorem C10_getNextState_truncates_to_char :
    (atoi "300" = 300 ∧
     wideLexer.scanning_table.containsNextState 1 'a' = true ∧
     wideLexer.scanning_table.state_symbol_to_state (1, 'a') = some 300 ∧
     (wideLexer.scanning_table.getNextState 1 'a').1 = 44) ∧
    ((Lexer.scan_loop sampleHeader 3 wideLexer (Scanner.ofFile "f" ['a']) 1 "").toOption.map
        (fun e => (e.state, e.tokenType, e.tokenEnd)) = some (44, some 0, "a") ∧
     wideLexer.token_table.isStateFinal 300 = true ∧
     wideLexer.token_table.isStateFinal 44 = false) ∧
    ((ScanningTable.ofCsv (CsvReader.ofGrid [["", "a"], ["1", "128"]])).state_symbol_to_state
        (1, 'a') = some 128 ∧
     ((ScanningTable.ofCsv (CsvReader.ofGrid [["", "a"], ["1", "128"]])).getNextState
        1 'a').1 = -128) := by
  decide!

theorem TokenTable.fold_succ (table : CsvReader) (n : Nat) (s : Int) :
    ((List.range (n + 1)).foldl
        (fun m row => map_assign m (atoi (table.get row 0)) (atoi (table.get row 1)))
        (fun _ => none)) s =
      if s = atoi (table.get n 0) then some (atoi (table.get n 1))
      else ((List.range n).foldl
        (fun m row => map_assign m (atoi (table.get row 0)) (atoi (table.get row 1)))
        (fun _ => none)) s := by
  rw [List.range_succ, List.foldl_append]
  rfl

theorem TokenTable.fold_isSome (table : CsvReader) (s : Int) :
    ∀ n : Nat,
      (((List.range n).foldl
          (fun m row => map_assign m (atoi (table.get row 0)) (atoi (table.get row 1)))
          (fun _ => none)) s).isSome = true ↔
        ∃ r, r < n ∧ atoi (table.get r 0) = s := by
  intro n
  induction n with
  | zero => simp
  | succ n ih =>
    rw [TokenTable.fold_succ]
    by_cases hs : s = atoi (table.get n 0)
    · rw [if_pos hs]
      simp only [Option.isSome_some, true_iff]
      exact ⟨n, Nat.lt_succ_self n, hs.symm⟩
    · rw [if_neg hs, ih]
      constructor
      · rintro ⟨r, hr, h⟩
        exact ⟨r, Nat.lt_succ_of_lt hr, h⟩
      · rintro ⟨r, hr, h⟩
        rcases Nat.lt_succ_iff_lt_or_eq.mp hr with hlt | heq
        · exact ⟨r, hlt, h⟩
        · subst heq
          exact absurd h.symm hs

theorem TokenTable.fold_last (table : CsvReader) (s : Int) :
    ∀ n r : Nat, r < n → atoi (table.get r 0) = s →
      (∀ r', r < r' → r' < n → atoi (table.get r' 0) ≠ s) →
      ((List.range n).foldl
          (fun m row => map_assign m (atoi (table.get row 0)) (atoi (table.get row 1)))
          (fun _ => none)) s = some (atoi (table.get r 1)) := by
  intro n
  induction n with
  | zero => intro r hr; omega
  | succ n ih =>
    intro r hr hs hlast
    rw [TokenTable.fold_succ]
    rcases Nat.lt_succ_iff_lt_or_eq.mp hr with hlt | heq
    · rw [if_neg (fun h => hlast n hlt (Nat.lt_succ_self n) h.symm)]
      exact ih r hlt hs (fun r' h1 h2 => hlast r' h1 (Nat.lt_succ_of_lt h2))
    · subst heq
      rw [if_pos hs.symm]

/-- C11: classification table construction, last row wins.  For every two-column
grid, `isStateFinal(s)` holds after construction if and only if column 0 of
some row parses to the integer s; and then `getTokenTypeFromFinalState(s)` is
the class parsed from column 1 of the last such row (and leaves the table as
it is).  The integer parsed is the `int` that `atoi` returns: the row
("4294967298", "1") makes state 2 accepting, and no accepting state is
outside the range of `int`. -/
theorem C11_token_table_last_row_wins (table : CsvReader) (s : Int) :
    ((TokenTable.ofCsv table).isStateFinal s = true ↔
      ∃ r, r < table.getRows ∧ atoi (table.get r 0) = s) ∧
    (∀ r, r < table.getRows → atoi (table.get r 0) = s →
      (∀ r', r < r' → r' < table.getRows → atoi (table.get r' 0) ≠ s) →
      (TokenTable.ofCsv table).getTokenTypeFromFinalState s =
        (atoi (table.get r 1), TokenTable.ofCsv table)) ∧
    ((TokenTable.ofCsv table).isStateFinal s = true → -2147483648 ≤ s ∧ s ≤ 2147483647) ∧
    (atoi "4294967298" = 2 ∧
     (TokenTable.ofCsv (CsvReader.ofGrid [["4294967298", "1"]])).isStateFinal 2 = true ∧
     (TokenTable.ofCsv (CsvReader.ofGrid [["4294967298", "1"]])).isStateFinal 4294967298 =
        false ∧
     ((TokenTable.ofCsv (CsvReader.ofGrid [["4294967298", "1"]])).getTokenTypeFromFinalState
        2).1 = 1) := by
  refine ⟨TokenTable.fold_isSome table s table.getRows, ?_, ?_, by decide!⟩
  · intro r hr hs hlast
    have h := TokenTable.fold_last table s table.getRows r hr hs hlast
    unfold TokenTable.getTokenTypeFromFinalState
    have h' : (TokenTable.ofCsv table).state_to_token_type s = some (atoi (table.get r 1)) := h
    rw [h']
  · intro h
    obtain ⟨r, _, hs⟩ := (TokenTable.fold_isSome table s table.getRows).mp h
    rw [← hs]
    exact atoi_range _

/-- Witness of C11: in a grid with the rows (2, 1), (3, 3), (2, 5) the states 2 and 3 are
accepting, state 1 is not, and state 2 has the class 5 of its last row. -/
theorem C11_token_table_last_row_wins_witness :
    ((TokenTable.ofCsv (CsvReader.ofGrid twoRowsGrid)).isStateFinal 2 = true ∧
     (TokenTable.ofCsv (CsvReader.ofGrid twoRowsGrid)).isStateFinal 3 = true ∧
     (TokenTable.ofCsv (CsvReader.ofGrid twoRowsGrid)).isStateFinal 1 = false) ∧
    (TokenTable.ofCsv (CsvReader.ofGrid twoRowsGrid)).getTokenTypeFromFinalState 2 =
      (atoi ((CsvReader.ofGrid twoRowsGrid).get 2 1),
        TokenTable.ofCsv (CsvReader.ofGrid twoRowsGrid)) ∧
    atoi ((CsvReader.ofGrid twoRowsGrid).get 2 1) = 5 :=
  ⟨by decide,
    (C11_token_table_last_row_wins (CsvReader.ofGrid twoRowsGrid) 2).2.1 2 (by decide) (by decide)
      (by intro r' h1 h2; exact absurd h2 (by simp [CsvReader.ofGrid, twoRowsGrid]; omega)),
    by decide⟩

/-- C12: symbol alias vocabulary.  For every non-empty cell text,
`map_string_to_char` returns newline for the texts "0x0A", "0x0a" and
backslash-n, carriage return for "0x0D", "0x0d" and backslash-r, space for
"0x20", tab for "0x09" and backslash-t, a comma for "comma" and "Comma", and
for every other text (the match is exact and case-sensitive) the first
character of the text. -/
theorem C12_symbol_alias_vocabulary (str : String) (hne : str ≠ "") :
    ((str = "0x0A" ∨ str = "0x0a" ∨ str = "\\n") →
      ScanningTable.map_string_to_char str = '\n') ∧
    ((str = "0x0D" ∨ str = "0x0d" ∨ str = "\\r") →
      ScanningTable.map_string_to_char str = '\r') ∧
    (str = "0x20" → ScanningTable.map_string_to_char str = ' ') ∧
    ((str = "0x09" ∨ str = "\\t") → ScanningTable.map_string_to_char str = '\t') ∧
    ((str = "comma" ∨ str = "Comma") → ScanningTable.map_string_to_char str = ',') ∧
    (str ∉ ["0x0A", "0x0a", "\\n", "0x0D", "0x0d", "\\r", "0x20", "0x09", "\\t", "comma",
        "Comma"] →
      ∃ c cs, str.toList = c :: cs ∧ ScanningTable.map_string_to_char str = c) := by
  refine ⟨?_, ?_, ?_, ?_, ?_, ?_⟩
  · rintro (h | h | h) <;> subst h <;> decide
  · rintro (h | h | h) <;> subst h <;> decide
  · intro h; subst h; decide
  · rintro (h | h) <;> subst h <;> decide
  · rintro (h | h) <;> subst h <;> decide
  · intro h
    simp only [List.mem_cons, List.mem_singleton, not_or, List.not_mem_nil, or_false] at h
    obtain ⟨h1, h2, h3, h4, h5, h6, h7, h8, h9, h10, h11⟩ := h
    have hl : str.toList ≠ [] := by
      intro hnil
      apply hne
      apply String.ext
      exact hnil
    obtain ⟨c, cs, hcs⟩ := List.exists_cons_of_ne_nil hl
    refine ⟨c, cs, hcs, ?_⟩
    unfold ScanningTable.map_string_to_char
    have hd : str.data = c :: cs := hcs
    simp [h1, h2, h3, h4, h5, h6, h7, h8, h9, h10, h11, hd]

/-- Witness of C12: the texts "0X0A" and "COMMA" are no aliases: they give their first
characters, the digit 0 and the letter C. -/
theorem C12_symbol_alias_vocabulary_witness :
    (∃ c cs, "0X0A".toList = c :: cs ∧ ScanningTable.map_string_to_char "0X0A" = c) ∧
    ScanningTable.map_string_to_char "0X0A" = '0' ∧
    ScanningTable.map_string_to_char "COMMA" = 'C' ∧
    ScanningTable.map_string_to_char "0x0a" = '\n' :=
  ⟨(C12_symbol_alias_vocabulary "0X0A" (by decide)).2.2.2.2.2 (by decide),
    by decide, by decide, by decide⟩

/-- C13: the peek/next contract of the character source.  For every scanner state,
`peek()` (a const method: it has no scanner to leave behind) returns the
character that `next()` returns from the same state; when the source is not
exhausted `next()` advances the cursor by exactly one position and leaves the
source and the path alone; when it is exhausted both return the sentinel NUL
and `next()` leaves the scanner as it is. -/
theorem C13_peek_next_contract (s : Scanner) :
    s.peek = s.next.1 ∧
    (s.current_character < s.source.length →
      s.next.2.current_character = s.current_character + 1 ∧
      s.next.2.source = s.source ∧ s.next.2.file_path = s.file_path ∧
      s.source[s.current_character]? = some s.next.1) ∧
    (¬ s.current_character < s.source.length →
      s.peek = '\x00' ∧ s.next.1 = '\x00' ∧ s.next.2 = s) := by
  unfold Scanner.peek Scanner.next
  by_cases h : s.current_character < s.source.length
  · simp only [h, dite_true, not_true_eq_false, false_implies, and_true, true_implies]
    by_cases hc : s.source[s.current_character] = '\n'
    · simp [hc, List.getElem?_eq_getElem h]
    · simp [hc, List.getElem?_eq_getElem h]
  · simp [h]

theorem Lexer.sameUpToErrorKey_refl (H : Header) (L : Lexer) : Lexer.SameUpToErrorKey H L L :=
  ⟨rfl, Or.inl rfl⟩

theorem TokenTable.ext_map {t u : TokenTable}
    (h : t.state_to_token_type = u.state_to_token_type) : t = u := by
  cases t; cases u; simp only at h; rw [h]

theorem Lexer.ext_tables {La Lb : Lexer} (h1 : Lb.scanning_table = La.scanning_table)
    (h2 : Lb.token_table = La.token_table) : Lb = La := by
  cases La; cases Lb; simp only at h1 h2; rw [h1, h2]

/-- The class that the loop assigns in a state is the same in two lexers that are
the same up to the key ERROR, and the lexers left behind are again the same
up to that key. -/
theorem Lexer.classify_sameUpToErrorKey (H : Header) {La Lb : Lexer}
    (hR : Lexer.SameUpToErrorKey H La Lb) (state : Int) :
    (Lexer.classify H Lb state).1 = (Lexer.classify H La state).1 ∧
    Lexer.SameUpToErrorKey H { La with token_table := (Lexer.classify H La state).2 }
      { Lb with token_table := (Lexer.classify H Lb state).2 } := by
  obtain ⟨hs, ht | ⟨hnone, hins⟩⟩ := hR
  · have hc : Lexer.classify H Lb state = Lexer.classify H La state := by
      unfold Lexer.classify
      rw [ht]
    rw [hc]
    exact ⟨rfl, hs, Or.inl rfl⟩
  · have hLbE : Lb.token_table.state_to_token_type H.ERROR = some 0 := by
      rw [hins]; simp [map_assign]
    cases hfa : La.token_table.state_to_token_type state with
    | some v =>
      have hne : state ≠ H.ERROR := by
        intro h; rw [h, hnone] at hfa; cases hfa
      have hfb : Lb.token_table.state_to_token_type state = some v := by
        rw [hins]; simp [map_assign, hne, hfa]
      have hca : Lexer.classify H La state = (v, La.token_table) := by
        simp [Lexer.classify, TokenTable.isStateFinal, TokenTable.getTokenTypeFromFinalState, hfa]
      have hcb : Lexer.classify H Lb state = (v, Lb.token_table) := by
        simp [Lexer.classify, TokenTable.isStateFinal, TokenTable.getTokenTypeFromFinalState, hfb]
      rw [hca, hcb]
      exact ⟨rfl, hs, Or.inr ⟨hnone, hins⟩⟩
    | none =>
      have hca : Lexer.classify H La state =
          (0, { state_to_token_type :=
                  map_assign La.token_table.state_to_token_type H.ERROR 0 }) := by
        simp [Lexer.classify, TokenTable.isStateFinal, TokenTable.getTokenTypeFromFinalState,
          hfa, hnone]
      have hcb : Lexer.classify H Lb state = (0, Lb.token_table) := by
        by_cases hse : state = H.ERROR
        · simp [Lexer.classify, TokenTable.isStateFinal,
            TokenTable.getTokenTypeFromFinalState, hse, hLbE]
        · have hfb : Lb.token_table.state_to_token_type state = none := by
            rw [hins]; simp [map_assign, hse, hfa]
          simp [Lexer.classify, TokenTable.isStateFinal,
            TokenTable.getTokenTypeFromFinalState, hfb, hLbE]
      rw [hca, hcb]
      exact ⟨rfl, hs, Or.inl (TokenTable.ext_map hins)⟩

/-- A lexer and the lexer that the classification leaves behind are the same up
to the key ERROR. -/
theorem Lexer.classify_leaves_sameUpToErrorKey (H : Header) (L : Lexer) (state : Int) :
    Lexer.SameUpToErrorKey H L { L with token_table := (Lexer.classify H L state).2 } := by
  refine ⟨rfl, ?_⟩
  unfold Lexer.classify TokenTable.getTokenTypeFromFinalState
  by_cases hf : L.token_table.isStateFinal state = true
  · rw [if_pos hf]
    cases h : L.token_table.state_to_token_type state with
    | none => simp [TokenTable.isStateFinal, h] at hf
    | some v => exact Or.inl rfl
  · rw [if_neg hf]
    cases h : L.token_table.state_to_token_type H.ERROR with
    | none => exact Or.inr ⟨rfl, rfl⟩
    | some v => exact Or.inl rfl

theorem Lexer.sameUpToErrorKey_trans (H : Header) {La Lb Lc : Lexer}
    (h1 : Lexer.SameUpToErrorKey H La Lb) (h2 : Lexer.SameUpToErrorKey H Lb Lc) :
    Lexer.SameUpToErrorKey H La Lc := by
  obtain ⟨hs1, ht1⟩ := h1
  obtain ⟨hs2, ht2⟩ := h2
  refine ⟨by rw [hs2, hs1], ?_⟩
  rcases ht1 with ht1 | ⟨hn1, hi1⟩
  · rcases ht2 with ht2 | ⟨hn2, hi2⟩
    · exact Or.inl (by rw [ht2, ht1])
    · exact Or.inr ⟨by rw [← ht1]; exact hn2, by rw [hi2, ht1]⟩
  · rcases ht2 with ht2 | ⟨hn2, hi2⟩
    · exact Or.inr ⟨hn1, by rw [ht2, hi1]⟩
    · rw [hi1] at hn2
      simp [map_assign] at hn2

theorem Lexer.scan_loop_sameUpToErrorKey (H : Header) :
    ∀ (fuel : Nat) (La Lb : Lexer) (sc : Scanner) (state : Int) (buf : String) (ea : ScanEnd),
      Lexer.SameUpToErrorKey H La Lb →
      Lexer.scan_loop H fuel La sc state buf = .ok ea →
      Lexer.SameUpToErrorKey H La ea.lexer ∧
      ∃ eb, Lexer.scan_loop H fuel Lb sc state buf = .ok eb ∧
        eb.tokenType = ea.tokenType ∧ eb.tokenEnd = ea.tokenEnd ∧ eb.state = ea.state ∧
        eb.scanner = ea.scanner ∧ Lexer.SameUpToErrorKey H ea.lexer eb.lexer := by
  intro fuel
  induction fuel with
  | zero => intro La Lb sc state buf ea _ h; simp [Lexer.scan_loop] at h
  | succ n ih =>
    intro La Lb sc state buf ea hR h
    by_cases hE : charToInt sc.peek = EOF
    · unfold Lexer.scan_loop at h ⊢
      rw [if_pos hE] at h ⊢
      cases h
      exact ⟨Lexer.sameUpToErrorKey_refl H La, _, rfl, rfl, rfl, rfl, rfl, hR⟩
    · by_cases hc : La.scanning_table.containsNextState state sc.peek = true
      · have hcb : Lb.scanning_table.containsNextState state sc.peek = true := by
          rw [hR.1]; exact hc
        rw [Lexer.scan_loop_step H La sc state buf n hE hc] at h
        rw [Lexer.scan_loop_step H Lb sc state buf n hE hcb, hR.1]
        exact ih La Lb _ _ _ ea hR h
      · have hc' : La.scanning_table.containsNextState state sc.peek = false := by
          simpa using hc
        have hcb : Lb.scanning_table.containsNextState state sc.peek = false := by
          rw [hR.1]; exact hc'
        rw [Lexer.scan_loop_stop H La sc state buf n hE hc'] at h
        rw [Lexer.scan_loop_stop H Lb sc state buf n hE hcb]
        cases h
        obtain ⟨h1, h2⟩ := Lexer.classify_sameUpToErrorKey H hR state
        exact ⟨Lexer.classify_leaves_sameUpToErrorKey H La state,
          _, rfl, by simp only [h1], rfl, rfl, rfl, h2⟩

theorem Lexer.scan_token_sameUpToErrorKey (H : Header) {La Lb : Lexer} {fuel : Nat}
    {sc : Scanner} {tok : token_t} {sc1 : Scanner} {La1 : Lexer}
    (hR : Lexer.SameUpToErrorKey H La Lb)
    (h : Lexer.scan_token H La fuel sc = .ok (tok, sc1, La1)) :
    Lexer.SameUpToErrorKey H La La1 ∧
    ∃ Lb1, Lexer.scan_token H Lb fuel sc = .ok (tok, sc1, Lb1) ∧
      Lexer.SameUpToErrorKey H La1 Lb1 := by
  obtain ⟨ea, hea, hf⟩ := Lexer.scan_token_ok h
  obtain ⟨cls, hty, hE, hW, htok, hsc, hL⟩ := Lexer.scan_finish_ok hf
  obtain ⟨hself, eb, heb, h1, h2, _, h4, h5⟩ :=
    Lexer.scan_loop_sameUpToErrorKey H fuel La Lb sc 1 "" ea hR hea
  refine ⟨by rw [hL]; exact hself, eb.lexer, ?_, by rw [hL]; exact h5⟩
  rw [Lexer.scan_token_of_loop heb,
    Lexer.scan_finish_of_guard H _ _ _ eb cls (by rw [h1]; exact hty) hE hW, htok, hsc, h2, h4]

theorem Lexer.lex_loop_sameUpToErrorKey (H : Header) :
    ∀ (fuel : Nat) (La Lb : Lexer) (sc : Scanner) (token : Option token_t)
      (stream : token_stream_t) (ra : LexEnd),
      Lexer.SameUpToErrorKey H La Lb →
      Lexer.lex_loop H fuel La sc token stream = .ok ra →
      Lexer.SameUpToErrorKey H La ra.lexer ∧
      ∃ rb, Lexer.lex_loop H fuel Lb sc token stream = .ok rb ∧
        rb.token_stream = ra.token_stream ∧ rb.scanner = ra.scanner ∧
        Lexer.SameUpToErrorKey H ra.lexer rb.lexer := by
  intro fuel
  induction fuel with
  | zero => intro La Lb sc token stream ra _ h; simp [Lexer.lex_loop] at h
  | succ n ih =>
    intro La Lb sc token stream ra hR h
    unfold Lexer.lex_loop at h ⊢
    by_cases hp : sc.peek ≠ '\x00'
    · rw [if_pos hp] at h ⊢
      cases hs : Lexer.scan_token H La n sc with
      | error f => rw [hs] at h; cases h
      | ok res =>
        obtain ⟨tok, sc1, La1⟩ := res
        rw [hs] at h
        dsimp only at h
        obtain ⟨hself, Lb1, hsb, hR1⟩ := Lexer.scan_token_sameUpToErrorKey H hR hs
        rw [hsb]
        dsimp only
        by_cases hw : tok.type ≠ H.WHITESPACE
        · rw [if_pos hw] at h ⊢
          obtain ⟨h1, h2⟩ := ih La1 Lb1 _ _ _ ra hR1 h
          exact ⟨Lexer.sameUpToErrorKey_trans H hself h1, h2⟩
        · rw [if_neg hw] at h ⊢
          obtain ⟨h1, h2⟩ := ih La1 Lb1 _ _ _ ra hR1 h
          exact ⟨Lexer.sameUpToErrorKey_trans H hself h1, h2⟩
    · rw [if_neg hp] at h ⊢
      cases token with
      | none => cases h
      | some assigned =>
        unfold Lexer.lex_finish at h ⊢
        cases h
        exact ⟨Lexer.sameUpToErrorKey_refl H La, _, rfl, rfl, rfl, hR⟩

/-- C14: determinism across runs.  For every header, pair of tables and source
text: when `lex` returns, calling it again on the lexer that the first call
left behind and on the same source returns (with the same fuel, and so with
any fuel that lets it return) the identical token stream, even though the
first run may have inserted the key ERROR into the classification table in
an error scan: the class that the loop assigns in any state is the same with
and without that key.  Every token of the two streams, the End-Of-File token
included, has a line and a column that a scan assigned, so the streams agree
in classes, lexemes, and assigned lines and columns, in the same order. -/
theorem C14_lex_twice_same_stream (H : Header) (L : Lexer) (fuel : Nat) (file : String)
    (src : List Char) (r1 : LexEnd)
    (h : Lexer.lex H L fuel file src = .ok r1) :
    (∃ r2, Lexer.lex H r1.lexer fuel file src = .ok r2 ∧
      r2.token_stream = r1.token_stream ∧ r2.scanner = r1.scanner) ∧
    (∀ fuel2 r2, Lexer.lex H r1.lexer fuel2 file src = .ok r2 →
      r2.token_stream = r1.token_stream) ∧
    (∀ t ∈ r1.token_stream, ∃ line column, t.line = some line ∧ t.column = some column) ∧
    (∀ fuel2 r2, Lexer.lex H r1.lexer fuel2 file src = .ok r2 →
      r2.token_stream.map (fun t => (t.type, t.lexeme, t.line, t.column)) =
        r1.token_stream.map (fun t => (t.type, t.lexeme, t.line, t.column)) ∧
      ∀ t ∈ r2.token_stream, ∃ line column, t.line = some line ∧ t.column = some column) := by
  obtain ⟨hself, _⟩ := Lexer.lex_loop_sameUpToErrorKey H fuel L L _ none [] r1
    (Lexer.sameUpToErrorKey_refl H L) h
  obtain ⟨_, r2, hr2, hst, hsc, _⟩ := Lexer.lex_loop_sameUpToErrorKey H fuel L r1.lexer _ none []
    r1 hself h
  have hany : ∀ fuel2 r2', Lexer.lex H r1.lexer fuel2 file src = .ok r2' →
      r2'.token_stream = r1.token_stream := by
    intro fuel2 r2' h2
    have ha := Lexer.lex_mono H r1.lexer fuel file src r2 hr2 fuel2
    have hb := Lexer.lex_mono H r1.lexer fuel2 file src r2' h2 fuel
    rw [Nat.add_comm fuel2 fuel, ha] at hb
    injection hb with hb
    rw [← hb]
    exact hst
  refine ⟨⟨r2, hr2, hst, hsc⟩, hany, Lexer.lex_ok_assigned h, ?_⟩
  intro fuel2 r2' h2
  exact ⟨by rw [hany fuel2 r2' h2], Lexer.lex_ok_assigned h2⟩

/-- Witness of C14: on the source "i" the first run passes through an error scan, which
inserts the key 0 into the classification table; the second run, on the
lexer left behind, returns the same stream: an error token "i" and the
End-Of-File token. -/
theorem C14_lex_twice_same_stream_witness :
    ((Lexer.lex sampleHeader ifxLexer 4 "f" "i".toList).toOption.map
        (fun r => (r.token_stream, r.lexer.token_table.isStateFinal 0)) =
      some ([{ type := 0, lexeme := "i", line := some 1, column := some 1, file := "f" },
             { type := 4, lexeme := "", line := some 1, column := some 1, file := "f" }],
            true) ∧
     ifxLexer.token_table.isStateFinal 0 = false ∧
     ((Lexer.lex sampleHeader ifxLexer 4 "f" "i".toList).toOption.bind
        (fun r => (Lexer.lex sampleHeader r.lexer 4 "f" "i".toList).toOption.map
          (fun r2 => r2.token_stream))) =
      some [{ type := 0, lexeme := "i", line := some 1, column := some 1, file := "f" },
            { type := 4, lexeme := "", line := some 1, column := some 1, file := "f" }]) ∧
    ∃ r1, Lexer.lex sampleHeader ifxLexer 4 "f" "i".toList = .ok r1 ∧
      (∃ r2, Lexer.lex sampleHeader r1.lexer 4 "f" "i".toList = .ok r2 ∧
        r2.token_stream = r1.token_stream ∧ r2.scanner = r1.scanner) ∧
      ∀ t ∈ r1.token_stream, ∃ line column, t.line = some line ∧ t.column = some column := by
  refine ⟨by decide!, ?_⟩
  obtain ⟨r1, hr1⟩ := exists_ok_of_toBool
    (Lexer.lex sampleHeader ifxLexer 4 "f" "i".toList) (by decide!)
  exact ⟨r1, hr1, (C14_lex_twice_same_stream sampleHeader ifxLexer 4 "f" "i".toList r1 hr1).1,
    (C14_lex_twice_same_stream sampleHeader ifxLexer 4 "f" "i".toList r1 hr1).2.2.1⟩

theorem TokenTable.isStateFinal_after_lookup (t : TokenTable) (s : Int) :
    (t.getTokenTypeFromFinalState s).2.isStateFinal s = true := by
  unfold TokenTable.getTokenTypeFromFinalState TokenTable.isStateFinal
  cases h : t.state_to_token_type s with
  | none => simp [map_assign]
  | some v => simp [h]

/-- C15 (the code at the failing input): a scan that takes the error branch writes into
the classification table.  The transition table is never changed by a scan;
but the error branch reads the error class with `operator[]` under the key
ERROR, which inserts that key when the table has no row for it: after any
scan that ends in the error branch `isStateFinal(ERROR)` holds, also when it
did not hold before.  With the sample header and a table that has no row for
state 0, `isStateFinal(0)` is false before the scan of "ix" and true after
it, and true in the lexer that `lex` leaves behind on the source "i". -/
theorem C15_error_scan_writes_token_table :
    (∀ (H : Header) (L : Lexer) (fuel : Nat) (sc : Scanner) (tok : token_t) (sc1 : Scanner)
        (L1 : Lexer), Lexer.scan_token H L fuel sc = .ok (tok, sc1, L1) →
        L1.scanning_table = L.scanning_table) ∧
    (∀ (H : Header) (L : Lexer) (fuel : Nat) (sc : Scanner) (state : Int) (buf : String),
        charToInt sc.peek ≠ EOF →
        L.scanning_table.containsNextState state sc.peek = false →
        L.token_table.isStateFinal state = false →
        ∃ e, Lexer.scan_loop H (fuel + 1) L sc state buf = .ok e ∧
          e.lexer.token_table.isStateFinal H.ERROR = true) ∧
    (ifxLexer.token_table.isStateFinal sampleHeader.ERROR = false ∧
     (Lexer.scan_token sampleHeader ifxLexer 3 (Scanner.ofFile "f" "ix".toList)).toOption.map
        (fun r => (r.1.type, r.1.lexeme, r.2.2.token_table.isStateFinal sampleHeader.ERROR)) =
      some (0, "i", true) ∧
     (Lexer.lex sampleHeader ifxLexer 4 "f" "i".toList).toOption.map
        (fun r => (r.token_stream.map (fun t => (t.type, t.lexeme)),
          r.lexer.token_table.isStateFinal sampleHeader.ERROR)) =
      some ([(0, "i"), (4, "")], true)) := by
  refine ⟨?_, ?_, by decide!⟩
  · intro H L fuel sc tok sc1 L1 h
    obtain ⟨e, he, hf⟩ := Lexer.scan_token_ok h
    obtain ⟨_, _, _, _, _, _, hL⟩ := Lexer.scan_finish_ok hf
    rw [hL]
    exact Lexer.scan_loop_table H _ _ _ _ _ e he
  · intro H L fuel sc state buf hE hc hnf
    refine ⟨_, Lexer.scan_loop_stop H L sc state buf fuel hE hc, ?_⟩
    have hcl : Lexer.classify H L state = L.token_table.getTokenTypeFromFinalState H.ERROR := by
      simp [Lexer.classify, hnf]
    show (Lexer.classify H L state).2.isStateFinal H.ERROR = true
    rw [hcl]
    exact TokenTable.isStateFinal_after_lookup _ _

/-- C16 (the code at the failing input): a scan can loop for ever.  At the end of the
source `peek()` returns NUL, which is not `EOF`, so the loop goes on; when
the current state has a transition on NUL the step is taken, but `next()`
does not move an exhausted scanner.  With the transitions 1 -a-> 2 and
2 -NUL-> 2 (an empty header cell), the scan of the source "a" uses up every
amount of fuel, whatever the header; and the transition step on NUL leaves
the cursor where it was. -/
theorem C16_scan_loops_on_nul_transition :
    (∀ (H : Header) (fuel : Nat),
      Lexer.scan_token H nulLoopLexer fuel (Scanner.ofFile "f" ['a']) = .error .out_of_fuel) ∧
    (nulLoopLexer.scanning_table.containsNextState 2
        ((Scanner.ofFile "f" ['a']).skip 1).peek = true ∧
     ((Scanner.ofFile "f" ['a']).skip 1).current_character = 1 ∧
     ((Scanner.ofFile "f" ['a']).skip 1).next.2.current_character = 1 ∧
     ((Scanner.ofFile "f" ['a']).skip 1).rest = []) := by
  refine ⟨?_, by decide⟩
  intro H
  have hnext : ((Scanner.ofFile "f" ['a']).skip 1).next.2 = (Scanner.ofFile "f" ['a']).skip 1 := by
    rw [Scanner.next_of_rest_nil (by decide)]
  have hloop : ∀ (n : Nat) (buf : String),
      Lexer.scan_loop H n nulLoopLexer ((Scanner.ofFile "f" ['a']).skip 1) 2 buf =
        .error .out_of_fuel := by
    intro n
    induction n with
    | zero => intro buf; rfl
    | succ n ih =>
      intro buf
      rw [Lexer.scan_loop_step H nulLoopLexer _ 2 buf n (by decide) (by decide), hnext]
      have hst : (nulLoopLexer.scanning_table.getNextState 2
          ((Scanner.ofFile "f" ['a']).skip 1).peek).1 = 2 := by decide
      rw [hst]
      exact ih _
  intro fuel
  unfold Lexer.scan_token
  cases fuel with
  | zero => rfl
  | succ n =>
    rw [Lexer.scan_loop_step H nulLoopLexer _ 1 "" n (by decide) (by decide)]
    have hst : (nulLoopLexer.scanning_table.getNextState 1
        (Scanner.ofFile "f" ['a']).peek).1 = 2 := by decide
    rw [hst]
    have hsk : (Scanner.ofFile "f" ['a']).next.2 = (Scanner.ofFile "f" ['a']).skip 1 := rfl
    rw [hsk, hloop]

/-- C17 (the code at the failing input): the single-token scan is not total.  On the
byte 0xFF (equal to `EOF` as a signed char) the loop is left at once and
`tokenType` is read without ever having been assigned, whatever the tables
and the header; when the class of the accepting state lies outside
ERROR .. WHITESPACE the test after the loop fails and no token with an
assigned class is returned (class 7 under the sample header, whose
WHITESPACE is 3); and a transition on NUL at the end of the source keeps the
scan from returning at all. -/
theorem C17_scan_token_is_not_total :
    (∀ (H : Header) (L : Lexer) (fuel : Nat),
      Lexer.scan_token H L (fuel + 1) (Scanner.ofFile "f" ['\xff']) =
        .error .undefined_behaviour) ∧
    (∀ (H : Header) (L : Lexer) (fuel : Nat) (sc : Scanner) (e : ScanEnd) (cls : token_class_t),
      Lexer.scan_loop H fuel L sc 1 "" = .ok e → e.tokenType = some cls →
      ¬ (H.ERROR ≤ cls ∧ cls ≤ H.WHITESPACE) →
      Lexer.scan_token H L fuel sc = .error .undefined_behaviour) ∧
    ((Lexer.scan_loop sampleHeader 3 classSevenLexer (Scanner.ofFile "f" ['1']) 1
        "").toOption.map (fun e => (e.tokenType, e.tokenEnd)) = some (some 7, "1") ∧
     sampleHeader.WHITESPACE = 3 ∧
     (Lexer.scan_token sampleHeader classSevenLexer 3 (Scanner.ofFile "f" ['1'])).toBool =
       false) := by
  refine ⟨?_, ?_, by decide!⟩
  · intro H L fuel
    unfold Lexer.scan_token Lexer.scan_loop
    rw [if_pos (by decide)]
    rfl
  · intro H L fuel sc e cls hloop hty hg
    rw [Lexer.scan_token_of_loop hloop]
    unfold Lexer.scan_finish
    simp only [hty]
    rw [if_neg hg]

theorem position_step (src : List Char) (i : Nat) (h : i < src.length) :
    lineAt src i < lineAt src (i + 1) ∨
      (lineAt src i = lineAt src (i + 1) ∧ columnAt src i < columnAt src (i + 1)) := by
  rw [lineAt_succ src i h, columnAt_succ src i h]
  by_cases hc : src[i] = '\n'
  · left
    rw [if_pos hc]
    omega
  · right
    rw [if_neg hc, if_neg hc]
    exact ⟨rfl, by omega⟩

theorem position_lt (src : List Char) :
    ∀ j i : Nat, i < j → j ≤ src.length →
      lineAt src i < lineAt src j ∨
        (lineAt src i = lineAt src j ∧ columnAt src i < columnAt src j) := by
  intro j
  induction j with
  | zero => intro i h; omega
  | succ j ih =>
    intro i hij hj
    have hstep := position_step src j (by omega)
    rcases Nat.lt_succ_iff_lt_or_eq.mp hij with hlt | heq
    · have := ih i hlt (by omega)
      rcases this with h1 | ⟨h1, h2⟩ <;> rcases hstep with h3 | ⟨h3, h4⟩
      · left; omega
      · left; omega
      · left; omega
      · right; exact ⟨by omega, by omega⟩
    · subst heq
      exact hstep

theorem Scanner.next_index_le (s : Scanner) :
    s.current_character ≤ s.next.2.current_character := by
  unfold Scanner.next
  by_cases h : s.current_character < s.source.length
  · simp only [h, dite_true]
    split <;> simp
  · simp [h]

theorem Scanner.next_index_of_lt (s : Scanner) (h : s.current_character < s.source.length) :
    s.next.2.current_character = s.current_character + 1 := by
  unfold Scanner.next
  simp only [h, dite_true]
  split <;> rfl

theorem Scanner.lt_of_peek_ne {s : Scanner} (h : s.peek ≠ '\x00') :
    s.current_character < s.source.length := by
  by_contra hge
  apply h
  simp [Scanner.peek, hge]

/-- A scan whose first character has a transition from state 1 returns (when it
returns) a non-empty lexeme and a scanner that has moved forward. -/
theorem Lexer.scan_token_progress {H : Header} {L : Lexer} {fuel : Nat} {sc : Scanner}
    {tok : token_t} {sc1 : Scanner} {L1 : Lexer}
    (hpk : sc.peek ≠ '\x00')
    (hc : L.scanning_table.containsNextState 1 sc.peek = true)
    (h : Lexer.scan_token H L fuel sc = .ok (tok, sc1, L1)) :
    tok.lexeme ≠ "" ∧ sc.current_character < sc1.current_character := by
  obtain ⟨e, he, hf⟩ := Lexer.scan_token_ok h
  obtain ⟨cls, hty, _, _, htok, hsc, _⟩ := Lexer.scan_finish_ok hf
  cases fuel with
  | zero => simp [Lexer.scan_loop] at he
  | succ n =>
    by_cases hE : charToInt sc.peek = EOF
    · unfold Lexer.scan_loop at he
      rw [if_pos hE] at he
      cases he
      simp at hty
    · rw [Lexer.scan_loop_step H L sc 1 "" n hE hc] at he
      obtain ⟨w, hw, _⟩ := Lexer.scan_loop_buffer H _ _ _ _ _ _ he
      have hidx := Lexer.scan_loop_scanner H
        (fun s => sc.next.2.current_character ≤ s.current_character)
        (fun s hs => Nat.le_trans hs (Scanner.next_index_le s)) _ _ _ _ _ _ he (Nat.le_refl _)
      rw [Scanner.next_index_of_lt sc (Scanner.lt_of_peek_ne hpk)] at hidx
      constructor
      · rw [htok]
        show e.tokenEnd ≠ ""
        rw [hw]
        intro hnil
        have := congrArg String.data hnil
        simp at this
      · rw [hsc]
        omega

theorem Lexer.scan_all_stuck (H : Header) (sc : Scanner) (hpk : sc.peek ≠ '\x00')
    (fuel : Nat) (L : Lexer)
    (hc : L.scanning_table.containsNextState 1 sc.peek = false)
    (res : List (Scanner × token_t) × Scanner × Lexer) :
    Lexer.scan_all H fuel L sc ≠ .ok res := by
  intro h
  obtain ⟨scans, scE, LE⟩ := res
  have hl := Lexer.lex_loop_eq_scan_all H fuel L sc
    (some { type := 0, lexeme := "", line := none, column := none, file := "" }) []
  rw [h] at hl
  dsimp only at hl
  cases hlast : (scans.map (fun s => s.2)).getLast? with
  | none =>
    rw [hlast] at hl
    exact Lexer.lex_loop_stuck H sc hpk fuel L _ [] hc _ hl
  | some t =>
    rw [hlast] at hl
    exact Lexer.lex_loop_stuck H sc hpk fuel L _ [] hc _ hl

/-- In a run of scans that returns, every scan has a non-empty lexeme and starts
at a cursor index beyond the one of every earlier scan. -/
theorem Lexer.scan_all_progress (H : Header) :
    ∀ (fuel : Nat) (L : Lexer) (sc : Scanner) (scans : List (Scanner × token_t))
      (scEnd : Scanner) (LEnd : Lexer),
      Lexer.scan_all H fuel L sc = .ok (scans, scEnd, LEnd) →
      (∀ x ∈ scans, sc.current_character ≤ x.1.current_character ∧ x.2.lexeme ≠ "") ∧
      scans.Pairwise (fun x y => x.1.current_character < y.1.current_character) ∧
      sc.current_character ≤ scEnd.current_character := by
  intro fuel
  induction fuel with
  | zero => intro L sc scans scEnd LEnd h; simp [Lexer.scan_all] at h
  | succ n ih =>
    intro L sc scans scEnd LEnd h
    unfold Lexer.scan_all at h
    by_cases hp : sc.peek ≠ '\x00'
    · rw [if_pos hp] at h
      cases hs : Lexer.scan_token H L n sc with
      | error f => rw [hs] at h; cases h
      | ok res =>
        obtain ⟨tok, sc1, L1⟩ := res
        rw [hs] at h
        dsimp only at h
        cases hall : Lexer.scan_all H n L1 sc1 with
        | error f => rw [hall] at h; cases h
        | ok r =>
          obtain ⟨rest, scE, LE⟩ := r
          rw [hall] at h
          dsimp only at h
          injection h with h
          injection h with h1 h2
          injection h2 with h2 h3
          subst h1 h2 h3
          by_cases hc : L.scanning_table.containsNextState 1 sc.peek = true
          · obtain ⟨hne, hlt⟩ := Lexer.scan_token_progress hp hc hs
            obtain ⟨ih1, ih2, ih3⟩ := ih L1 sc1 rest _ _ hall
            refine ⟨?_, ?_, by omega⟩
            · intro x hx
              rcases List.mem_cons.mp hx with hx | hx
              · subst hx
                exact ⟨Nat.le_refl _, hne⟩
              · exact ⟨by have := (ih1 x hx).1; omega, (ih1 x hx).2⟩
            · rw [List.pairwise_cons]
              refine ⟨?_, ih2⟩
              intro x hx
              have := (ih1 x hx).1
              show sc.current_character < x.1.current_character
              omega
          · have hc' : L.scanning_table.containsNextState 1 sc.peek = false := by
              simpa using hc
            obtain ⟨hsc, hL⟩ := Lexer.scan_token_stuck hc' hs
            subst hsc
            exact absurd hall
              (Lexer.scan_all_stuck H _ hp n L1 (by rw [hL]; exact hc') _)
    · rw [if_neg hp] at h
      injection h with h
      injection h with h1 h2
      injection h2 with h2 h3
      subst h1 h2 h3
      exact ⟨by simp, List.Pairwise.nil, Nat.le_refl _⟩

/-- C18: the progress invariant of a run that returns.  For every header, pair of
tables and source text on which `lex` returns, every token produced by a scan
during the run has a non-empty lexeme, and the tokens scanned stand one
before the other in the lexicographic order of (line, column); so do the
tokens of the returned stream before its final End-Of-File token (a copy of
the last token scanned), which all have non-empty lexemes. -/
theorem C18_progress_invariant (H : Header) (L : Lexer) (fuel : Nat) (file : String)
    (src : List Char) (r : LexEnd)
    (h : Lexer.lex H L fuel file src = .ok r) :
    ∃ scans scEnd LEnd,
      Lexer.scan_all H fuel L (Scanner.ofFile file src) = .ok (scans, scEnd, LEnd) ∧
      (∀ x ∈ scans, x.2.lexeme ≠ "") ∧
      (scans.map (fun s => s.2)).Pairwise token_t.before ∧
      ∃ init last, (scans.map (fun s => s.2)).getLast? = some last ∧
        r.token_stream = init ++ [Lexer.eof_token H last] ∧
        (∀ t ∈ init, t.lexeme ≠ "") ∧ init.Pairwise token_t.before := by
  obtain ⟨scans, scE, LE, hall, _, _, _, last, hlast, hstream⟩ := Lexer.lex_ok h
  obtain ⟨hprog, hpair, _⟩ := Lexer.scan_all_progress H fuel L _ scans scE LE hall
  obtain ⟨hent, _, _⟩ := Lexer.scan_all_entries H
    (fun s => s.source = src ∧ s.WellPositioned)
    (fun s hs => ⟨by rw [(Scanner.next_source s).1]; exact hs.1,
      Scanner.next_wellPositioned s hs.2⟩)
    fuel L _ scans scE LE hall ⟨rfl, Scanner.ofFile_wellPositioned file src⟩
  have hbefore : (scans.map (fun s => s.2)).Pairwise token_t.before := by
    rw [List.pairwise_map]
    refine List.Pairwise.imp_of_mem ?_ hpair
    intro x y hx hy hxy
    obtain ⟨⟨hsx, hwx⟩, hpx, fx, Lx, sx, Lx1, hscanx⟩ := hent x hx
    obtain ⟨⟨hsy, hwy⟩, hpy, fy, Ly, sy, Ly1, hscany⟩ := hent y hy
    obtain ⟨hxl, hxc, _, _, _⟩ := Lexer.scan_token_position H hwx hscanx
    obtain ⟨hyl, hyc, _, _, _⟩ := Lexer.scan_token_position H hwy hscany
    have hylt := Scanner.lt_of_peek_ne hpy
    rw [hsx] at hxl hxc
    rw [hsy] at hyl hyc hylt
    exact ⟨_, _, _, _, hxl, hxc, hyl, hyc,
      position_lt src y.1.current_character x.1.current_character hxy (Nat.le_of_lt hylt)⟩
  refine ⟨scans, scE, LE, hall, fun x hx => (hprog x hx).2, hbefore, _, last, hlast, hstream,
    ?_, ?_⟩
  · intro t ht
    rw [List.mem_filter, List.mem_map] at ht
    obtain ⟨⟨x, hx, hxt⟩, _⟩ := ht
    rw [← hxt]
    exact (hprog x hx).2
  · exact List.Pairwise.filter _ hbefore

/-- Witness of C18: on the source "1 1", a newline and "1" the five scans return
non-empty lexemes at (1,1), (1,2), (1,3), (1,4) and (2,1). -/
theorem C18_progress_invariant_witness :
    (Lexer.scan_all sampleHeader 9 spaceLexer (Scanner.ofFile "f" "1 1\n1".toList)).toOption.map
        (fun r => r.1.map (fun s => (s.2.lexeme, s.2.line, s.2.column))) =
      some [("1", some 1, some 1), (" ", some 1, some 2), ("1", some 1, some 3),
            ("\n", some 1, some 4), ("1", some 2, some 1)] ∧
    ∃ r, Lexer.lex sampleHeader spaceLexer 9 "f" "1 1\n1".toList = .ok r ∧
      ∃ scans scEnd LEnd,
        Lexer.scan_all sampleHeader 9 spaceLexer (Scanner.ofFile "f" "1 1\n1".toList) =
          .ok (scans, scEnd, LEnd) ∧
        (∀ x ∈ scans, x.2.lexeme ≠ "") ∧
        (scans.map (fun s => s.2)).Pairwise token_t.before ∧
        ∃ init last, (scans.map (fun s => s.2)).getLast? = some last ∧
          r.token_stream = init ++ [Lexer.eof_token sampleHeader last] ∧
          (∀ t ∈ init, t.lexeme ≠ "") ∧ init.Pairwise token_t.before := by
  refine ⟨by decide!, ?_⟩
  obtain ⟨r, hr⟩ := exists_ok_of_toBool
    (Lexer.lex sampleHeader spaceLexer 9 "f" "1 1\n1".toList) (by decide!)
  exact ⟨r, hr, C18_progress_invariant sampleHeader spaceLexer 9 "f" "1 1\n1".toList r hr⟩

theorem untilNul_cons_of_ne {c : Char} (hc : c ≠ '\x00') (cs : List Char) :
    untilNul (c :: cs) = c :: untilNul cs := by
  simp [untilNul, List.takeWhile_cons, hc]

theorem getD_untilNul : ∀ (l : List Char) (i : Nat), i ≤ (untilNul l).length →
    l[i]?.getD '\x00' = (untilNul l)[i]?.getD '\x00' := by
  intro l
  induction l with
  | nil => intro i _; simp [untilNul]
  | cons c cs ih =>
    intro i hi
    by_cases hc : c = '\x00'
    · have htw : untilNul (c :: cs) = [] := by simp [untilNul, hc]
      rw [htw] at hi ⊢
      have : i = 0 := by simpa using hi
      subst this
      simp [hc]
    · have htw : untilNul (c :: cs) = c :: untilNul cs := by
        simp [untilNul, List.takeWhile_cons, hc]
      rw [htw] at hi ⊢
      cases i with
      | zero => simp
      | succ j =>
        simp only [List.length_cons, Nat.add_le_add_iff_right] at hi
        simpa using ih j hi

theorem untilNul_length_le (l : List Char) : (untilNul l).length ≤ l.length := by
  induction l with
  | nil => simp [untilNul]
  | cons c cs ih =>
    by_cases hc : c = '\x00'
    · simp [untilNul, hc]
    · have htw : untilNul (c :: cs) = c :: untilNul cs := by
        simp [untilNul, List.takeWhile_cons, hc]
      rw [htw]
      simp only [List.length_cons]
      omega

theorem untilNul_idem (l : List Char) : untilNul (untilNul l) = untilNul l := by
  induction l with
  | nil => simp [untilNul]
  | cons c cs ih =>
    by_cases hc : c = '\x00'
    · simp [untilNul, hc]
    · rw [untilNul_cons_of_ne hc, untilNul_cons_of_ne hc, ih]

theorem Scanner.peek_eq_getD (s : Scanner) :
    s.peek = s.source[s.current_character]?.getD '\x00' := by
  unfold Scanner.peek
  by_cases h : s.current_character < s.source.length
  · simp [h, List.getElem?_eq_getElem]
  · simp [h, List.getElem?_eq_none (Nat.le_of_not_lt h)]

theorem Scanner.peek_agree {a b : Scanner} (h : a.AgreeUntilNul b) : a.peek = b.peek := by
  obtain ⟨_, _, _, hidx, hsrc, hle⟩ := h
  rw [Scanner.peek_eq_getD, Scanner.peek_eq_getD, getD_untilNul a.source _ hle,
    getD_untilNul b.source _ (by rw [← hsrc, ← hidx]; exact hle), hsrc, hidx]

theorem Scanner.next_eq_of_lt (s : Scanner) (h : s.current_character < s.source.length) :
    s.next.2 =
      if s.peek = '\n' then
        { s with current_character := s.current_character + 1,
                 current_line := s.current_line + 1, current_column := 1 }
      else
        { s with current_character := s.current_character + 1,
                 current_column := s.current_column + 1 } := by
  unfold Scanner.next Scanner.peek
  simp only [h, dite_true]
  split <;> rfl

theorem Scanner.next_agree {a b : Scanner} (h : a.AgreeUntilNul b) (hpk : a.peek ≠ '\x00') :
    a.next.2.AgreeUntilNul b.next.2 := by
  have hpeek := Scanner.peek_agree h
  obtain ⟨hf, hl, hc, hidx, hsrc, hle⟩ := h
  have hlt : a.current_character < (untilNul a.source).length := by
    by_contra hge
    apply hpk
    rw [Scanner.peek_eq_getD, getD_untilNul a.source _ hle,
      List.getElem?_eq_none (Nat.le_of_not_lt hge)]
    rfl
  have hlta : a.current_character < a.source.length :=
    Nat.lt_of_lt_of_le hlt (untilNul_length_le _)
  have hltb : b.current_character < b.source.length := by
    rw [← hidx]
    exact Nat.lt_of_lt_of_le (by rw [← hsrc]; exact hlt) (untilNul_length_le _)
  rw [Scanner.next_eq_of_lt a hlta, Scanner.next_eq_of_lt b hltb, ← hpeek]
  by_cases hn : a.peek = '\n'
  · rw [if_pos hn, if_pos hn]
    exact ⟨hf, by simp only [hl], rfl, by simp only [hidx], hsrc, hlt⟩
  · rw [if_neg hn, if_neg hn]
    exact ⟨hf, hl, by simp only [hc], by simp only [hidx], hsrc, hlt⟩

theorem Lexer.scan_loop_agree (H : Header) :
    ∀ (fuel : Nat) (L : Lexer) (a b : Scanner) (state : Int) (buf : String) (ea : ScanEnd),
      (∀ st, L.scanning_table.containsNextState st '\x00' = false) →
      a.AgreeUntilNul b →
      Lexer.scan_loop H fuel L a state buf = .ok ea →
      ∃ eb, Lexer.scan_loop H fuel L b state buf = .ok eb ∧
        eb.tokenType = ea.tokenType ∧ eb.tokenEnd = ea.tokenEnd ∧ eb.state = ea.state ∧
        eb.lexer = ea.lexer ∧ ea.scanner.AgreeUntilNul eb.scanner := by
  intro fuel
  induction fuel with
  | zero => intro L a b state buf ea _ _ h; simp [Lexer.scan_loop] at h
  | succ n ih =>
    intro L a b state buf ea hNul hab h
    have hpeek := Scanner.peek_agree hab
    by_cases hE : charToInt a.peek = EOF
    · unfold Lexer.scan_loop at h ⊢
      rw [if_pos hE] at h
      rw [if_pos (by rw [← hpeek]; exact hE)]
      cases h
      exact ⟨_, rfl, rfl, rfl, rfl, rfl, hab⟩
    · by_cases hc : L.scanning_table.containsNextState state a.peek = true
      · have hpk : a.peek ≠ '\x00' := by
          intro h0
          rw [h0, hNul state] at hc
          cases hc
        rw [Lexer.scan_loop_step H L a state buf n hE hc] at h
        rw [Lexer.scan_loop_step H L b state buf n (by rw [← hpeek]; exact hE)
          (by rw [← hpeek]; exact hc), ← hpeek]
        exact ih L _ _ _ _ ea hNul (Scanner.next_agree hab hpk) h
      · have hc' : L.scanning_table.containsNextState state a.peek = false := by
          simpa using hc
        rw [Lexer.scan_loop_stop H L a state buf n hE hc'] at h
        rw [Lexer.scan_loop_stop H L b state buf n (by rw [← hpeek]; exact hE)
          (by rw [← hpeek]; exact hc')]
        cases h
        exact ⟨_, rfl, rfl, rfl, rfl, rfl, hab⟩

theorem Lexer.scan_token_agree (H : Header) {L : Lexer} {fuel : Nat} {a b : Scanner}
    {tok : token_t} {a1 : Scanner} {L1 : Lexer}
    (hNul : ∀ st, L.scanning_table.containsNextState st '\x00' = false)
    (hab : a.AgreeUntilNul b)
    (h : Lexer.scan_token H L fuel a = .ok (tok, a1, L1)) :
    ∃ b1, Lexer.scan_token H L fuel b = .ok (tok, b1, L1) ∧ a1.AgreeUntilNul b1 := by
  obtain ⟨ea, hea, hf⟩ := Lexer.scan_token_ok h
  obtain ⟨cls, hty, hE, hW, htok, hsc, hL⟩ := Lexer.scan_finish_ok hf
  obtain ⟨eb, heb, h1, h2, _, h4, h5⟩ := Lexer.scan_loop_agree H fuel L a b 1 "" ea hNul hab hea
  refine ⟨eb.scanner, ?_, by rw [hsc]; exact h5⟩
  obtain ⟨hf', hl', hc', _, _, _⟩ := hab
  rw [Lexer.scan_token_of_loop heb,
    Lexer.scan_finish_of_guard H _ _ _ eb cls (by rw [h1]; exact hty) hE hW, htok, hL, h2, h4,
    hf', hl', hc']

theorem Lexer.lex_loop_agree (H : Header) :
    ∀ (fuel : Nat) (L : Lexer) (a b : Scanner) (token : Option token_t)
      (stream : token_stream_t) (ra : LexEnd),
      (∀ st, L.scanning_table.containsNextState st '\x00' = false) →
      a.AgreeUntilNul b →
      Lexer.lex_loop H fuel L a token stream = .ok ra →
      ∃ rb, Lexer.lex_loop H fuel L b token stream = .ok rb ∧
        rb.token_stream = ra.token_stream ∧ rb.lexer = ra.lexer ∧
        ra.scanner.AgreeUntilNul rb.scanner := by
  intro fuel
  induction fuel with
  | zero => intro L a b token stream ra _ _ h; simp [Lexer.lex_loop] at h
  | succ n ih =>
    intro L a b token stream ra hNul hab h
    have hpeek := Scanner.peek_agree hab
    unfold Lexer.lex_loop at h ⊢
    by_cases hp : a.peek ≠ '\x00'
    · rw [if_pos hp] at h
      rw [if_pos (by rw [← hpeek]; exact hp)]
      cases hs : Lexer.scan_token H L n a with
      | error f => rw [hs] at h; cases h
      | ok res =>
        obtain ⟨tok, a1, L1⟩ := res
        rw [hs] at h
        dsimp only at h
        obtain ⟨b1, hsb, hab1⟩ := Lexer.scan_token_agree H hNul hab hs
        have hL1 : L1.scanning_table = L.scanning_table := by
          obtain ⟨e, he, hf⟩ := Lexer.scan_token_ok hs
          obtain ⟨_, _, _, _, _, _, hL⟩ := Lexer.scan_finish_ok hf
          rw [hL]
          exact Lexer.scan_loop_table H _ _ _ _ _ e he
        have hNul1 : ∀ st, L1.scanning_table.containsNextState st '\x00' = false := by
          intro st; rw [hL1]; exact hNul st
        rw [hsb]
        dsimp only
        by_cases hw : tok.type ≠ H.WHITESPACE
        · rw [if_pos hw] at h ⊢
          exact ih L1 a1 b1 _ _ ra hNul1 hab1 h
        · rw [if_neg hw] at h ⊢
          exact ih L1 a1 b1 _ _ ra hNul1 hab1 h
    · rw [if_neg hp] at h
      rw [if_neg (by rw [← hpeek]; exact hp)]
      cases token with
      | none => cases h
      | some assigned =>
        unfold Lexer.lex_finish at h ⊢
        cases h
        exact ⟨_, rfl, rfl, rfl, hab⟩

/-- Without transitions on NUL, the loop of a scan adds to `tokenEnd` exactly the
characters that the scanner has moved over, none of which is NUL. -/
theorem Lexer.scan_loop_consumed (H : Header) :
    ∀ (fuel : Nat) (L : Lexer) (sc : Scanner) (state : Int) (buf : String) (e : ScanEnd),
      (∀ st, L.scanning_table.containsNextState st '\x00' = false) →
      Lexer.scan_loop H fuel L sc state buf = .ok e →
      ∃ w : List Char, e.tokenEnd = buf ++ String.mk w ∧ sc.rest = w ++ e.scanner.rest ∧
        (∀ c ∈ w, c ≠ '\x00') := by
  intro fuel
  induction fuel with
  | zero => intro L sc state buf e _ h; simp [Lexer.scan_loop] at h
  | succ n ih =>
    intro L sc state buf e hNul h
    by_cases hE : charToInt sc.peek = EOF
    · unfold Lexer.scan_loop at h
      rw [if_pos hE] at h
      cases h
      exact ⟨[], (String.append_mk_nil buf).symm, rfl, by simp⟩
    · by_cases hc : L.scanning_table.containsNextState state sc.peek = true
      · have hpk : sc.peek ≠ '\x00' := by
          intro h0
          rw [h0, hNul state] at hc
          cases hc
        rw [Lexer.scan_loop_step H L sc state buf n hE hc] at h
        obtain ⟨w, hw, hrest, hnn⟩ := ih L _ _ _ e hNul h
        cases hr : sc.rest with
        | nil => exact absurd (Scanner.peek_of_rest_nil hr) hpk
        | cons c cs =>
          have hpc := Scanner.peek_of_rest_cons hr
          obtain ⟨_, hnr, _⟩ := Scanner.next_of_rest_cons hr
          refine ⟨c :: w, ?_, ?_, ?_⟩
          · rw [hw, hpc, String.push_append_mk]
          · rw [hnr] at hrest
            rw [hrest]
            rfl
          · intro d hd
            rcases List.mem_cons.mp hd with hd | hd
            · rw [hd, ← hpc]; exact hpk
            · exact hnn d hd
      · rw [Lexer.scan_loop_stop H L sc state buf n hE (by simpa using hc)] at h
        cases h
        exact ⟨[], (String.append_mk_nil buf).symm, rfl, by simp⟩

theorem Lexer.scan_all_consumed (H : Header) :
    ∀ (fuel : Nat) (L : Lexer) (sc : Scanner) (scans : List (Scanner × token_t))
      (scEnd : Scanner) (LEnd : Lexer),
      (∀ st, L.scanning_table.containsNextState st '\x00' = false) →
      Lexer.scan_all H fuel L sc = .ok (scans, scEnd, LEnd) →
      sc.rest = (scans.map (fun x => x.2.lexeme.toList)).flatten ++ scEnd.rest ∧
      (∀ c ∈ (scans.map (fun x => x.2.lexeme.toList)).flatten, c ≠ '\x00') ∧
      scEnd.peek = '\x00' := by
  intro fuel
  induction fuel with
  | zero => intro L sc scans scEnd LEnd _ h; simp [Lexer.scan_all] at h
  | succ n ih =>
    intro L sc scans scEnd LEnd hNul h
    unfold Lexer.scan_all at h
    by_cases hp : sc.peek ≠ '\x00'
    · rw [if_pos hp] at h
      cases hs : Lexer.scan_token H L n sc with
      | error f => rw [hs] at h; cases h
      | ok res =>
        obtain ⟨tok, sc1, L1⟩ := res
        rw [hs] at h
        dsimp only at h
        cases hall : Lexer.scan_all H n L1 sc1 with
        | error f => rw [hall] at h; cases h
        | ok r =>
          obtain ⟨rest, scE, LE⟩ := r
          rw [hall] at h
          dsimp only at h
          injection h with h
          injection h with h1 h2
          injection h2 with h2 h3
          subst h1 h2 h3
          obtain ⟨e, he, hf⟩ := Lexer.scan_token_ok hs
          obtain ⟨_, _, _, _, htok, hsc, hL⟩ := Lexer.scan_finish_ok hf
          have hL1 : L1.scanning_table = L.scanning_table := by
            rw [hL]
            exact Lexer.scan_loop_table H _ _ _ _ _ e he
          obtain ⟨w, hw, hrest, hnn⟩ := Lexer.scan_loop_consumed H n L sc 1 "" e hNul he
          have hlex : tok.lexeme.toList = w := by
            rw [htok]
            show e.tokenEnd.toList = w
            rw [hw]
            simp [String.toList]
          obtain ⟨ih1, ih2, ih3⟩ := ih L1 sc1 rest _ _
            (by intro st; rw [hL1]; exact hNul st) hall
          refine ⟨?_, ?_, ih3⟩
          · simp only [List.map_cons, List.flatten_cons, hlex, List.append_assoc]
            rw [← ih1, hsc]
            exact hrest
          · intro c hc
            simp only [List.map_cons, List.flatten_cons, hlex, List.mem_append] at hc
            rcases hc with hc | hc
            · exact hnn c hc
            · exact ih2 c hc
    · rw [if_neg hp] at h
      injection h with h
      injection h with h1 h2
      injection h2 with h2 h3
      subst h1 h2 h3
      exact ⟨by simp, by simp, by simpa using hp⟩

theorem untilNul_append_of_stop (a b : List Char) (ha : ∀ c ∈ a, c ≠ '\x00')
    (hb : b.head?.getD '\x00' = '\x00') : untilNul (a ++ b) = a := by
  induction a with
  | nil =>
    cases b with
    | nil => simp [untilNul]
    | cons c cs =>
      have hc : c = '\x00' := by simpa using hb
      simp [untilNul, hc]
  | cons c cs ih =>
    have hc : c ≠ '\x00' := ha c (List.mem_cons_self _ _)
    have := ih (fun d hd => ha d (List.mem_cons_of_mem _ hd))
    rw [List.cons_append, untilNul_cons_of_ne hc, this]

theorem Scanner.peek_eq_head_rest (s : Scanner) : s.peek = s.rest.head?.getD '\x00' := by
  cases hr : s.rest with
  | nil => rw [Scanner.peek_of_rest_nil hr]; rfl
  | cons c cs => rw [Scanner.peek_of_rest_cons hr]; rfl

/-- C19: coverage up to the first NUL.  For every transition table with no
transition on the NUL character, every classification table and every source
text on which `lex` returns, the lexemes of all tokens scanned (the discarded
WHITESPACE ones included), concatenated in scan order, are the part of the
source that precedes its first NUL (all of it when it has none); the cursor
ends there, so that nothing after an embedded NUL is lexed; and `lex` on
that part alone returns the same token stream.  Every token of the two
streams, the End-Of-File token included, has a line and a column that a scan
assigned: a run that returns has at least one scan. -/
theorem C19_coverage_up_to_first_nul (H : Header) (L : Lexer) (fuel : Nat) (file : String)
    (src : List Char) (r : LexEnd)
    (hNul : ∀ state, L.scanning_table.containsNextState state '\x00' = false)
    (h : Lexer.lex H L fuel file src = .ok r) :
    ∃ scans scEnd LEnd,
      Lexer.scan_all H fuel L (Scanner.ofFile file src) = .ok (scans, scEnd, LEnd) ∧
      r.token_stream = Lexer.stream_of_scans H scans ∧
      (scans.map (fun x => x.2.lexeme.toList)).flatten =
        src.takeWhile (fun c => decide (c ≠ '\x00')) ∧
      src = (scans.map (fun x => x.2.lexeme.toList)).flatten ++ scEnd.rest ∧
      scEnd.peek = '\x00' ∧
      ∃ r', Lexer.lex H L fuel file (src.takeWhile (fun c => decide (c ≠ '\x00'))) = .ok r' ∧
        r'.token_stream = r.token_stream ∧ r'.lexer = r.lexer ∧
        scans ≠ [] ∧
        (∀ t ∈ r.token_stream, ∃ line column, t.line = some line ∧ t.column = some column) ∧
        (∀ t ∈ r'.token_stream, ∃ line column, t.line = some line ∧ t.column = some column) := by
  obtain ⟨scans, scE, LE, hall, hstream, _, _, last, hlast, _⟩ := Lexer.lex_ok h
  have hne : scans ≠ [] := by
    intro hnil
    rw [hnil] at hlast
    cases hlast
  obtain ⟨h1, h2, h3⟩ := Lexer.scan_all_consumed H fuel L _ scans scE LE hNul hall
  have hsrc : src = (scans.map (fun x => x.2.lexeme.toList)).flatten ++ scE.rest := h1
  have hcover : (scans.map (fun x => x.2.lexeme.toList)).flatten = untilNul src := by
    have := untilNul_append_of_stop _ scE.rest h2 (by rw [← Scanner.peek_eq_head_rest]; exact h3)
    rw [← hsrc] at this
    exact this.symm
  have hagree : (Scanner.ofFile file src).AgreeUntilNul (Scanner.ofFile file (untilNul src)) :=
    ⟨rfl, rfl, rfl, rfl, (untilNul_idem src).symm, Nat.zero_le _⟩
  obtain ⟨r', hr', hs', hl', _⟩ := Lexer.lex_loop_agree H fuel L _ _ none [] r hNul hagree h
  exact ⟨scans, scE, LE, hall, hstream, hcover, hsrc, h3, r', hr', hs', hl', hne,
    Lexer.lex_ok_assigned h, Lexer.lex_ok_assigned hr'⟩

/-- A transition table built from a grid none of whose header cells normalizes
to NUL has no transition on NUL. -/
theorem ScanningTable.no_nul_of_headers (table : CsvReader)
    (h : ∀ k, k < table.getColumns → 1 ≤ k →
      ScanningTable.map_string_to_char (table.get 0 k) ≠ '\x00') :
    ∀ state, (ScanningTable.ofCsv table).containsNextState state '\x00' = false := by
  intro state
  by_contra hc
  have hc' : (ScanningTable.ofCsv table).containsNextState state '\x00' = true := by
    simpa using hc
  unfold ScanningTable.containsNextState ScanningTable.ofCsv at hc'
  rw [ScanningTable.fill_columns_isSome] at hc'
  rcases hc' with h0 | ⟨k, hk, r, _, _, hsym, _⟩
  · simp at h0
  · rw [mem_range_from_one] at hk
    exact h k hk.2 hk.1 hsym

/-- Witness of C19: the source is "1 1", a NUL and "1"; the three scans return "1", a
blank and "1", the stream is the same as on the source "1 1", and the digit
after the NUL is never lexed. -/
theorem C19_coverage_up_to_first_nul_witness :
    (['1', ' ', '1', '\x00', '1'].takeWhile (fun c => decide (c ≠ '\x00')) = ['1', ' ', '1'] ∧
     (Lexer.scan_all sampleHeader 9 spaceLexer
        (Scanner.ofFile "f" ['1', ' ', '1', '\x00', '1'])).toOption.map
        (fun x => (x.1.map (fun s => s.2.lexeme), x.2.1.current_character)) =
      some (["1", " ", "1"], 3) ∧
     (Lexer.lex sampleHeader spaceLexer 9 "f" ['1', ' ', '1', '\x00', '1']).toOption.map
        (fun x => x.token_stream) =
      (Lexer.lex sampleHeader spaceLexer 9 "f" ['1', ' ', '1']).toOption.map
        (fun x => x.token_stream)) ∧
    ∃ r, Lexer.lex sampleHeader spaceLexer 9 "f" ['1', ' ', '1', '\x00', '1'] = .ok r ∧
      ∃ scans scEnd LEnd,
        Lexer.scan_all sampleHeader 9 spaceLexer
            (Scanner.ofFile "f" ['1', ' ', '1', '\x00', '1']) = .ok (scans, scEnd, LEnd) ∧
        r.token_stream = Lexer.stream_of_scans sampleHeader scans ∧
        (scans.map (fun x => x.2.lexeme.toList)).flatten =
          ['1', ' ', '1', '\x00', '1'].takeWhile (fun c => decide (c ≠ '\x00')) ∧
        ['1', ' ', '1', '\x00', '1'] =
          (scans.map (fun x => x.2.lexeme.toList)).flatten ++ scEnd.rest ∧
        scEnd.peek = '\x00' ∧
        ∃ r', Lexer.lex sampleHeader spaceLexer 9 "f"
              (['1', ' ', '1', '\x00', '1'].takeWhile (fun c => decide (c ≠ '\x00'))) =
            .ok r' ∧
          r'.token_stream = r.token_stream ∧ r'.lexer = r.lexer ∧
          scans ≠ [] ∧
          (∀ t ∈ r.token_stream, ∃ line column, t.line = some line ∧ t.column = some column) ∧
          (∀ t ∈ r'.token_stream,
            ∃ line column, t.line = some line ∧ t.column = some column) := by
  refine ⟨by decide!, ?_⟩
  obtain ⟨r, hr⟩ := exists_ok_of_toBool
    (Lexer.lex sampleHeader spaceLexer 9 "f" ['1', ' ', '1', '\x00', '1']) (by decide!)
  exact ⟨r, hr,
    C19_coverage_up_to_first_nul sampleHeader spaceLexer 9 "f" ['1', ' ', '1', '\x00', '1'] r
      (ScanningTable.no_nul_of_headers
        (CsvReader.ofGrid
          [["", "1", "0x20", "0x0A"], ["1", "2", "3", "3"], ["2", "2", "", ""],
           ["3", "", "3", "3"]])
        (by decide))
      hr⟩

end LexerCpp
